import Mathlib

/-!
Verification of the tinta terminal-styling library (Go) against its
natural-language specification.

Go strings are modelled as lists of bytes (`List Nat`, each element < 256 for
the inputs we build, though the definitions are total over `Nat`).  Go code
that can panic (out-of-range indexing) is modelled with `Option`: `none`
means the Go original panics on that input.

The translation is from the Go sources:
  - output.go   : stripANSI, visibleWidth, colorEnabled
  - text.go     : TextStyle codes, render
  - the box file: box struct, chaining methods, wrapCodes, render, applyShadow
-/

namespace Tinta

/-- UTF-8 encoding of a single code point (standard encoder; used only to
build concrete byte strings from Lean string literals). -/
def utf8Encode (n : Nat) : List Nat :=
  if n < 0x80 then [n]
  else if n < 0x800 then [0xC0 + n / 0x40, 0x80 + n % 0x40]
  else if n < 0x10000 then
    [0xE0 + n / 0x1000, 0x80 + (n / 0x40) % 0x40, 0x80 + n % 0x40]
  else
    [0xF0 + n / 0x40000, 0x80 + (n / 0x1000) % 0x40,
     0x80 + (n / 0x40) % 0x40, 0x80 + n % 0x40]

/-- A Go string literal as its UTF-8 byte sequence. -/
def goStr (s : String) : List Nat :=
  (s.data.map (fun c => utf8Encode c.toNat)).flatten

/-- The ESC byte. -/
def escB : Nat := 0x1b

/-!
## stripANSI (output.go lines 81-134)

The Go function scans the byte string with an index and three kinds of
skipping: CSI sequences (ESC `[` ... final byte in 0x40-0x7E), OSC sequences
(ESC `]` ... BEL or ESC `\`), and two-byte escapes.  We model the scan as a
byte-at-a-time state machine so that the recursion is structural:

  * `norm`   : the outer loop, at a byte that is not inside a sequence;
  * `esc`    : just consumed an ESC (Go: dispatch on `s[i+1]`);
  * `csi`    : inside ESC `[`: Go loop
               `for j < len(s) && s[j] < 0x40 || s[j] > 0x7E`.
               Because of Go operator precedence this condition evaluates
               `s[j]` even when `j == len(s)`, so reaching the end of the
               string inside a CSI sequence panics with an index-out-of-range
               runtime error; we return `none` for that case.  When the loop
               stops at a byte in 0x40-0x7E, Go skips that final byte too.
  * `osc`    : inside ESC `]`: scan for BEL (0x07) or ESC `\`; running off
               the end is fine (the loop just stops).
  * `oscEsc` : inside ESC `]` having just seen an ESC: if the next byte is
               a backslash both are consumed; otherwise Go advances past the
               ESC only and re-examines the next byte in the OSC loop.
-/

inductive StripMode where
  | norm | esc | csi | osc | oscEsc
deriving DecidableEq, Repr

/-- One pass of Go stripANSI starting in the given state. `none` models the
index-out-of-range panic of the CSI loop on truncated input. -/
def stripFrom : StripMode → List Nat → Option (List Nat)
  | .norm, [] => some []
  | .norm, b :: r =>
      if b = 0x1b then stripFrom .esc r
      else (stripFrom .norm r).map (b :: ·)
  | .esc, [] => some []
  | .esc, b :: r =>
      if b = 0x5b then stripFrom .csi r
      else if b = 0x5d then stripFrom .osc r
      else stripFrom .norm r
  | .csi, [] => none
  | .csi, b :: r =>
      if 0x40 ≤ b ∧ b ≤ 0x7E then stripFrom .norm r
      else stripFrom .csi r
  | .osc, [] => some []
  | .osc, b :: r =>
      if b = 0x07 then stripFrom .norm r
      else if b = 0x1b then stripFrom .oscEsc r
      else stripFrom .osc r
  | .oscEsc, [] => some []
  | .oscEsc, b :: r =>
      if b = 0x5c then stripFrom .norm r
      else if b = 0x07 then stripFrom .norm r
      else if b = 0x1b then stripFrom .oscEsc r
      else stripFrom .osc r

/-- Go stripANSI, including its fast path for strings without ESC. -/
def stripANSI (s : List Nat) : Option (List Nat) :=
  if 0x1b ∈ s then stripFrom .norm s else some s

/-!
## Rune counting (Go `for range` over a string)

Go counts one rune per properly encoded UTF-8 sequence and one rune per
byte of invalid encoding (each invalid byte advances the scan by exactly
one byte and yields U+FFFD).  The accept ranges for the second byte follow
Go unicode/utf8.
-/

/-- Lower bound for the second byte of a multi-byte sequence. -/
def lowB (b0 : Nat) : Nat :=
  if b0 = 0xE0 then 0xA0 else if b0 = 0xF0 then 0x90 else 0x80

/-- Upper bound for the second byte of a multi-byte sequence. -/
def highB (b0 : Nat) : Nat :=
  if b0 = 0xED then 0x9F else if b0 = 0xF4 then 0x8F else 0xBF

/-- Is `b1` acceptable as the second byte after leading byte `b0`. -/
def accept1 (b0 b1 : Nat) : Bool := lowB b0 ≤ b1 ∧ b1 ≤ highB b0

/-- Is `b` a plain continuation byte. -/
def isCont (b : Nat) : Bool := 0x80 ≤ b ∧ b ≤ 0xBF

/-- Number of continuation bytes the first rune consumes beyond its leading
byte `b0`: 1-3 for a properly encoded multi-byte rune whose continuation
bytes are present in `rest`, and 0 both for ASCII and for any invalid
encoding (Go advances one byte on a failed decode). -/
def runeExtra (b0 : Nat) (rest : List Nat) : Nat :=
  if b0 < 0x80 then 0
  else if 0xC2 ≤ b0 ∧ b0 ≤ 0xDF then
    match rest with
    | b1 :: _ => if accept1 b0 b1 then 1 else 0
    | [] => 0
  else if 0xE0 ≤ b0 ∧ b0 ≤ 0xEF then
    match rest with
    | b1 :: b2 :: _ => if accept1 b0 b1 ∧ isCont b2 then 2 else 0
    | _ => 0
  else if 0xF0 ≤ b0 ∧ b0 ≤ 0xF4 then
    match rest with
    | b1 :: b2 :: b3 :: _ => if accept1 b0 b1 ∧ isCont b2 ∧ isCont b3 then 3 else 0
    | _ => 0
  else 0

/-- Does the string headed by `b0` start with a properly encoded rune. -/
def validFirst (b0 : Nat) (rest : List Nat) : Bool :=
  if b0 < 0x80 then true
  else if 0xC2 ≤ b0 ∧ b0 ≤ 0xDF then
    match rest with
    | b1 :: _ => accept1 b0 b1
    | [] => false
  else if 0xE0 ≤ b0 ∧ b0 ≤ 0xEF then
    match rest with
    | b1 :: b2 :: _ => accept1 b0 b1 ∧ isCont b2
    | _ => false
  else if 0xF0 ≤ b0 ∧ b0 ≤ 0xF4 then
    match rest with
    | b1 :: b2 :: b3 :: _ => accept1 b0 b1 ∧ isCont b2 ∧ isCont b3
    | _ => false
  else false

/-- Rune counting as a byte scan: `skip` continuation bytes of the current
rune remain to be consumed. -/
def crAux : Nat → List Nat → Nat
  | _, [] => 0
  | k + 1, _ :: rest => crAux k rest
  | 0, b0 :: rest => crAux (runeExtra b0 rest) rest + 1

/-- Number of runes Go's `for range` sees in a byte string: each properly
encoded rune counts once; each byte of invalid encoding counts once. -/
def countRunes (l : List Nat) : Nat := crAux 0 l

/-- Go visibleWidth (output.go lines 138-145): strip, then count runes.
`none` models the stripANSI panic. -/
def visibleWidth (s : List Nat) : Option Nat :=
  (stripANSI s).map countRunes

example : stripANSI (goStr "\x1b[31mhello\x1b[0m") = some (goStr "hello") := by decide
example : stripANSI (goStr "a\x1b[") = none := by decide
example : stripANSI (goStr "\x1b") = some [] := by decide
example : stripANSI (goStr "\x1b]x\x07ab") = some (goStr "ab") := by decide
example : visibleWidth (goStr "│hi│") = some 4 := by decide
example : visibleWidth (goStr "\x1b[37;44;1mhello\x1b[0m") = some 5 := by decide

/-!
## Style accumulator (text.go) and the shared wrap primitive (box file)

ANSI SGR code constants from text.go, as byte strings.
-/

def cReset : List Nat := goStr "\x1b[0m"
def cBold : List Nat := goStr "1"
def cDim : List Nat := goStr "2"
def cBlack : List Nat := goStr "30"
def cRed : List Nat := goStr "31"
def cBrightBlack : List Nat := goStr "90"

/-- The `;`-joining loop shared by text.go render and the box wrapCodes:
write each code, preceded by a semicolon from the second one on. -/
def joinSemi : List (List Nat) → List Nat
  | [] => []
  | c :: cs => c ++ (cs.map (fun d => 0x3b :: d)).flatten

/-- wrapCodes (box file, lines 492-520): wrap `s` in the given SGR codes;
identity when colors are disabled or no codes accumulated.  `enabled` is the
snapshot of the process-wide isEnabled() flag. -/
def wrapCodes (enabled : Bool) (s : List Nat) (codes : List (List Nat)) : List Nat :=
  if ¬enabled ∨ codes = [] then s
  else [0x1b, 0x5b] ++ joinSemi codes ++ [0x6d] ++ s ++ cReset

/-- A TextStyle value: its ordered accumulated SGR codes (text.go). -/
structure TextStyle where
  codes : List (List Nat)
deriving DecidableEq, Repr

/-- Text() constructor: no codes. -/
def TextStyle.mkEmpty : TextStyle := ⟨[]⟩

/-- text.go `with`: copy the codes and add one more; the source value is
untouched (value semantics here; the heap model below checks the aliasing
side of this). -/
def TextStyle.withCode (t : TextStyle) (code : List Nat) : TextStyle :=
  ⟨t.codes ++ [code]⟩

/-- text.go render (lines 174-204): identity when disabled or no codes,
otherwise ESC `[` codes-joined-by-semicolons `m` s reset. -/
def TextStyle.render (enabled : Bool) (t : TextStyle) (s : List Nat) : List Nat :=
  if ¬enabled ∨ t.codes = [] then s
  else [0x1b, 0x5b] ++ joinSemi t.codes ++ [0x6d] ++ s ++ cReset

/-!
## Color auto-detection (output.go lines 51-65)

`getenv` stands for os.Getenv; `ttyStdout` is the result of the
isTerminal(os.Stdout) device heuristic, which is I/O and enters the model
as a boolean input.  The Go code compares TERM against "dumb" with
strings.EqualFold; since the letters d, u, m, b have no case-fold partners
outside ASCII, ASCII lowercasing of the environment value is an exact
translation of that comparison.
-/

/-- ASCII lower-casing of one character. -/
def asciiLowerChar (c : Char) : Char :=
  if 65 ≤ c.toNat ∧ c.toNat ≤ 90 then Char.ofNat (c.toNat + 32) else c

/-- strings.EqualFold(v, "dumb"). -/
def equalFoldDumb (v : String) : Bool :=
  v.data.map asciiLowerChar = "dumb".data

def colorEnabled (getenv : String → String) (ttyStdout : Bool) : Bool :=
  if getenv "NO_COLOR" ≠ "" ∨ getenv "NO_COLORS" ≠ "" ∨ getenv "DISABLE_COLORS" ≠ "" then
    false
  else if getenv "FORCE_COLOR" ≠ "" ∨ getenv "CLICOLOR_FORCE" ≠ "" then
    true
  else if getenv "CLICOLOR" = "0" then
    false
  else if equalFoldDumb (getenv "TERM") then
    false
  else
    ttyStdout

/-!
## Box data model (box file lines 9-133)

Padding and margin magnitudes are Go ints in the source; the data-model
invariant of the spec (section 3) requires them non-negative, and they are
modelled as Nat.  The centered-line index set is a Go map[int]struct
keyed by possibly-negative ints, modelled as a list of Int with membership
semantics.
-/

structure Border where
  topLeft : List Nat
  topRight : List Nat
  bottomLeft : List Nat
  bottomRight : List Nat
  horizontal : List Nat
  vertical : List Nat
deriving DecidableEq, Repr

def borderSimple : Border :=
  ⟨goStr "┌", goStr "┐", goStr "└", goStr "┘", goStr "─", goStr "│"⟩

structure ShadowStyle where
  topLeft : List Nat
  topRight : List Nat
  bottomLeft : List Nat
  bottomRight : List Nat
  horizontal : List Nat
  vertical : List Nat
deriving DecidableEq, Repr

def shadowLight : ShadowStyle :=
  ⟨goStr "░", goStr "░", goStr "░", goStr "░", goStr "░", goStr "░"⟩

inductive ShadowPosition where
  | bottomRight | bottomLeft | topRight | topLeft
deriving DecidableEq, Repr

structure Box where
  border : Border
  codes : List (List Nat)
  padTop : Nat
  padRight : Nat
  padBottom : Nat
  padLeft : Nat
  marginTop : Nat
  marginRight : Nat
  marginBottom : Nat
  marginLeft : Nat
  center : Bool
  centerTrim : Bool
  centerLines : List Int
  centerFirst : Bool
  centerLast : Bool
  hideTop : Bool
  hideBottom : Bool
  hideLeft : Bool
  hideRight : Bool
  shadow : Option ShadowStyle
  shadowPos : ShadowPosition
  shadowCodes : List (List Nat)
deriving DecidableEq, Repr

/-- Box() constructor: simple border, everything else zero. -/
def boxNew : Box :=
  ⟨borderSimple, [], 0, 0, 0, 0, 0, 0, 0, 0, false, false, [], false, false,
   false, false, false, false, none, .bottomRight, []⟩

/-- withCode: copyBox plus one appended frame code. -/
def Box.withCode (b : Box) (code : List Nat) : Box :=
  { b with codes := b.codes ++ [code] }

def Box.Center (b : Box) : Box := { b with center := true }

def Box.CenterTrim (b : Box) : Box := { b with center := true, centerTrim := true }

def Box.CenterLine (b : Box) (n : Int) : Box :=
  { b with centerLines := b.centerLines ++ [n] }

def Box.CenterFirstLine (b : Box) : Box := { b with centerFirst := true }

def Box.CenterLastLine (b : Box) : Box := { b with centerLast := true }

def Box.DisableTop (b : Box) : Box := { b with hideTop := true }

def Box.DisableBottom (b : Box) : Box := { b with hideBottom := true }

def Box.DisableLeft (b : Box) : Box := { b with hideLeft := true }

def Box.DisableRight (b : Box) : Box := { b with hideRight := true }

/-- Shadow (box file lines 370-378): install the style and position, and a
default bright-black shadow code only when none was accumulated yet. -/
def Box.Shadow (b : Box) (pos : ShadowPosition) (sty : ShadowStyle) : Box :=
  { b with shadow := some sty, shadowPos := pos,
           shadowCodes := if b.shadowCodes = [] then [cBrightBlack] else b.shadowCodes }

def Box.ShadowDim (b : Box) : Box :=
  { b with shadowCodes := b.shadowCodes ++ [cDim] }

def Box.ShadowBlack (b : Box) : Box :=
  { b with shadowCodes := b.shadowCodes ++ [cBlack] }

def Box.ShadowBrightBlack (b : Box) : Box :=
  { b with shadowCodes := b.shadowCodes ++ [cBrightBlack] }

/-!
## Render pipeline (box file lines 533-702) and shadow overlay (714-806)
-/

/-- strings.Split(content, "\n") on bytes. -/
def splitNL : List Nat → List (List Nat)
  | [] => [[]]
  | b :: r =>
      if b = 0x0a then [] :: splitNL r
      else
        match splitNL r with
        | h :: t => (b :: h) :: t
        | [] => [[b]]

/-- strings.Repeat(" ", n). -/
def spaces (n : Nat) : List Nat := List.replicate n 0x20

/-- strings.Repeat(g, n). -/
def rep (g : List Nat) (n : Nat) : List Nat := (List.replicate n g).flatten

/-- Decode a byte string into rune tokens (code point, bytes), with Go's
one-byte advance on invalid UTF-8; used only to model strings.TrimSpace. -/
def runeTokens : List Nat → List (Nat × List Nat)
  | [] => []
  | b0 :: rest =>
    let bad := (0xFFFD, [b0]) :: runeTokens rest
    if b0 < 0x80 then (b0, [b0]) :: runeTokens rest
    else if 0xC2 ≤ b0 ∧ b0 ≤ 0xDF then
      match rest with
      | b1 :: rest1 =>
          if accept1 b0 b1 then
            ((b0 - 0xC0) * 0x40 + (b1 - 0x80), [b0, b1]) :: runeTokens rest1
          else bad
      | [] => bad
    else if 0xE0 ≤ b0 ∧ b0 ≤ 0xEF then
      match rest with
      | b1 :: b2 :: rest2 =>
          if accept1 b0 b1 ∧ isCont b2 then
            ((b0 - 0xE0) * 0x1000 + (b1 - 0x80) * 0x40 + (b2 - 0x80),
             [b0, b1, b2]) :: runeTokens rest2
          else bad
      | _ => bad
    else if 0xF0 ≤ b0 ∧ b0 ≤ 0xF4 then
      match rest with
      | b1 :: b2 :: b3 :: rest3 =>
          if accept1 b0 b1 ∧ isCont b2 ∧ isCont b3 then
            ((b0 - 0xF0) * 0x40000 + (b1 - 0x80) * 0x1000 + (b2 - 0x80) * 0x40
               + (b3 - 0x80), [b0, b1, b2, b3]) :: runeTokens rest3
          else bad
      | _ => bad
    else bad

/-- unicode.IsSpace on a code point. -/
def isSpaceRune (c : Nat) : Bool :=
  c = 0x20 ∨ (0x9 ≤ c ∧ c ≤ 0xD) ∨ c = 0x85 ∨ c = 0xA0 ∨ c = 0x1680 ∨
  (0x2000 ≤ c ∧ c ≤ 0x200A) ∨ c = 0x2028 ∨ c = 0x2029 ∨ c = 0x202F ∨
  c = 0x205F ∨ c = 0x3000

/-- strings.TrimSpace: drop leading and trailing white-space runes. -/
def trimSpace (s : List Nat) : List Nat :=
  let ts := (runeTokens s).dropWhile (fun t => isSpaceRune t.1)
  let ts2 := (ts.reverse.dropWhile (fun t => isSpaceRune t.1)).reverse
  (ts2.map Prod.snd).flatten

/-- The maxW loop of render: running maximum starting from 0. -/
def maxVis (ws : List Nat) : Nat := ws.foldl (fun a w => if w > a then w else a) 0

/-- Glyph substitution for a disabled side (render lines 556-577, 634-641):
a hidden glyph becomes a run of spaces of its visible width; the width
measurement is only performed when the side is actually hidden. -/
def subGlyph (hide : Bool) (g : List Nat) : Option (List Nat) :=
  if hide then (visibleWidth g).map spaces else some g

/-- shouldCenter for content line `i` (render lines 595-605). -/
def shouldCenterAt (b : Box) (i : Nat) (lastIdx : Nat) : Bool :=
  b.center ∨ b.centerLines.contains (i : Int) ∨ (b.centerFirst ∧ i = 0) ∨
  (b.centerLast ∧ i = lastIdx)

/-- The leftPad/rightPad computation for one content line (render lines
607-617).  Centering splits the slack with floor division on the left; the
non-centered branch clamps at zero exactly as the Go int code does. -/
def padPair (shouldCenter : Bool) (availW vis : Nat) : Nat × Nat :=
  if shouldCenter ∧ vis < availW then
    let total := availW - vis
    (total / 2, total - total / 2)
  else
    (0, availW - vis)

/-- The content rows of the box (render lines 588-624): left chrome and
right chrome each wrapped independently in the frame codes, raw line
in between. -/
def contentRows (enabled : Bool) (b : Box) (leftVert rightVert : List Nat)
    (innerW : Nat) (lines : List (List Nat)) : Option (List (List Nat)) :=
  let lastIdx := lines.length - 1
  let availW := innerW - b.padLeft - b.padRight
  lines.enum.mapM fun p => do
    let vis ← visibleWidth p.2
    let pads := padPair (shouldCenterAt b p.1 lastIdx) availW vis
    pure (wrapCodes enabled (leftVert ++ spaces (b.padLeft + pads.1)) b.codes
          ++ p.2
          ++ wrapCodes enabled (spaces (pads.2 + b.padRight) ++ rightVert) b.codes)

/-- The pre-margin box rows (render lines 543-644): optional top border,
top padding rows, content rows, bottom padding rows, optional bottom
border. -/
def boxRowsOf (enabled : Bool) (b : Box) (lines : List (List Nat)) :
    Option (List (List Nat)) := do
  let ws ← lines.mapM visibleWidth
  let maxW := maxVis ws
  let innerW := maxW + b.padLeft + b.padRight
  let leftVert ← subGlyph b.hideLeft b.border.vertical
  let rightVert ← subGlyph b.hideRight b.border.vertical
  let top ←
    if b.hideTop then pure []
    else do
      let tl ← subGlyph b.hideLeft b.border.topLeft
      let tr ← subGlyph b.hideRight b.border.topRight
      pure [wrapCodes enabled (tl ++ rep b.border.horizontal innerW ++ tr) b.codes]
  let padRow := wrapCodes enabled (leftVert ++ spaces innerW ++ rightVert) b.codes
  let content ← contentRows enabled b leftVert rightVert innerW lines
  let bot ←
    if b.hideBottom then pure []
    else do
      let bl ← subGlyph b.hideLeft b.border.bottomLeft
      let br ← subGlyph b.hideRight b.border.bottomRight
      pure [wrapCodes enabled (bl ++ rep b.border.horizontal innerW ++ br) b.codes]
  pure (top ++ List.replicate b.padTop padRow ++ content
        ++ List.replicate b.padBottom padRow ++ bot)

/-- applyShadow (lines 714-806): add the L-shaped shadow for the configured
position.  Widths of the shadow glyphs are measured with visibleWidth, so a
malformed glyph propagates the stripANSI panic. -/
def applyShadow (enabled : Bool) (b : Box) (rows : List (List Nat))
    (boxVisW : Nat) : Option (List (List Nat)) :=
  match b.shadow with
  | none => some rows
  | some s =>
    if rows.length = 0 then some rows
    else do
      let shadowV := wrapCodes enabled s.vertical b.shadowCodes
      let vertW ← visibleWidth s.vertical
      let spacer := spaces vertW
      let horzW ← visibleWidth s.horizontal
      let hFill := boxVisW - 2 * vertW
      let hCount := if horzW > 0 then hFill / horzW else 0
      let n := rows.length
      match b.shadowPos with
      | .bottomRight =>
          let hBar := s.bottomLeft ++ rep s.horizontal hCount ++ s.bottomRight
          pure ([rows.headD [] ++ spacer]
            ++ (if n > 1 then
                  (rows.getD 1 [] ++ wrapCodes enabled s.topRight b.shadowCodes)
                    :: (rows.drop 2).map (· ++ shadowV)
                else [])
            ++ [spacer ++ wrapCodes enabled hBar b.shadowCodes])
      | .bottomLeft =>
          let hBar := s.bottomLeft ++ rep s.horizontal hCount ++ s.bottomRight
          pure ([spacer ++ rows.headD []]
            ++ (if n > 1 then
                  (wrapCodes enabled s.topLeft b.shadowCodes ++ rows.getD 1 [])
                    :: (rows.drop 2).map (shadowV ++ ·)
                else [])
            ++ [wrapCodes enabled hBar b.shadowCodes ++ spacer])
      | .topRight =>
          let hBar := s.topLeft ++ rep s.horizontal hCount ++ s.topRight
          pure ((spacer ++ wrapCodes enabled hBar b.shadowCodes)
            :: ((rows.take (n - 1)).map (· ++ shadowV)
              ++ [(if n > 1 then rows.getD (n - 1) [] else rows.headD [])
                    ++ wrapCodes enabled s.bottomRight b.shadowCodes]))
      | .topLeft =>
          let hBar := s.topLeft ++ rep s.horizontal hCount ++ s.topRight
          pure ((wrapCodes enabled hBar b.shadowCodes ++ spacer)
            :: ((rows.take (n - 1)).map (shadowV ++ ·)
              ++ [wrapCodes enabled s.bottomLeft b.shadowCodes
                    ++ (if n > 1 then rows.getD (n - 1) [] else rows.headD [])]))

/-- The final write loop of render (lines 675-695): each row between the
margins, followed by a newline except for the terminal row dictated by the
policy.  `n` is the total number of rows, `i` the running index. -/
def rowsOut (hasShadow : Bool) (bbIdx : Int) (mL mR : List Nat) (n : Nat) :
    Nat → List (List Nat) → List Nat
  | _, [] => []
  | i, r :: rest =>
      mL ++ r ++ mR
        ++ (if hasShadow then (if i < n - 1 then [0x0a] else [])
            else if 0 ≤ bbIdx ∧ (i : Int) = bbIdx then []
            else [0x0a])
        ++ rowsOut hasShadow bbIdx mL mR n (i + 1) rest

/-- render (box file lines 533-702). -/
def render (enabled : Bool) (b : Box) (content : List Nat) : Option (List Nat) := do
  let lines0 := splitNL content
  let lines := if b.centerTrim then lines0.map trimSpace else lines0
  let boxRows ← boxRowsOf enabled b lines
  let boxVisW ← if boxRows.length > 0 then visibleWidth (boxRows.headD []) else pure 0
  let bbIdx : Int := if ¬b.hideBottom then (boxRows.length : Int) - 1 else -1
  let hasShadow := b.shadow.isSome
  let rows2 ← if hasShadow then applyShadow enabled b boxRows boxVisW else pure boxRows
  pure (List.replicate b.marginTop 0x0a
        ++ rowsOut hasShadow bbIdx (spaces b.marginLeft) (spaces b.marginRight)
             rows2.length 0 rows2
        ++ List.replicate b.marginBottom 0x0a)

/-!
## Heap model for immutability (claim about copy-on-write chaining)

Values live in an append-only heap; a chaining operation reads its receiver
cell, allocates the derived value in a fresh cell, and leaves every existing
cell untouched — this is the Go behaviour of `with` (text.go lines 73-78,
make + copy into a fresh slice) and `withCode` (copyBox deep copy, lines
105-133, then append to a capacity-full fresh slice, which reallocates).
-/

/-- text.go `with` as a heap operation: allocate the extended style in a new
cell and return its reference. -/
def textWith (h : List TextStyle) (r : Nat) (code : List Nat) :
    List TextStyle × Nat :=
  (h ++ [TextStyle.withCode (h.getD r TextStyle.mkEmpty) code], h.length)

/-- Render the text style stored at reference `r`. -/
def renderTextAt (h : List TextStyle) (r : Nat) (enabled : Bool)
    (s : List Nat) : List Nat :=
  TextStyle.render enabled (h.getD r TextStyle.mkEmpty) s

/-- Box withCode as a heap operation: copyBox into a fresh cell plus the
appended frame code. -/
def boxWithCodeH (h : List Box) (r : Nat) (code : List Nat) :
    List Box × Nat :=
  (h ++ [Box.withCode (h.getD r boxNew) code], h.length)

/-- Render the box stored at reference `r`. -/
def renderBoxAt (h : List Box) (r : Nat) (enabled : Bool)
    (content : List Nat) : Option (List Nat) :=
  render enabled (h.getD r boxNew) content

/-!
## Specification-side definitions used by refinement statements
-/

/-- The corrected precedence cascade for color detection, written in the
spec's vocabulary: the three unconditional disable variables beat the two
force variables; CLICOLOR=0 and TERM=dumb disable only when no force
variable is set; otherwise the terminal-device heuristic decides. -/
def colorCascadeSpec (getenv : String → String) (ttyStdout : Bool) : Bool :=
  if getenv "NO_COLOR" ≠ "" ∨ getenv "NO_COLORS" ≠ "" ∨ getenv "DISABLE_COLORS" ≠ "" then
    false
  else if getenv "FORCE_COLOR" ≠ "" ∨ getenv "CLICOLOR_FORCE" ≠ "" then
    true
  else if getenv "CLICOLOR" = "0" ∨ equalFoldDumb (getenv "TERM") then
    false
  else
    ttyStdout

/-!
## Escape-awareness predicates used by the width lemmas
-/

/-- The byte scan backing validUtf8, with `skip` pending continuation
bytes of the current rune. -/
def validAux : Nat → List Nat → Bool
  | 0, [] => true
  | _ + 1, [] => false
  | k + 1, _ :: rest => validAux k rest
  | 0, b0 :: rest =>
      if validFirst b0 rest then validAux (runeExtra b0 rest) rest else false

/-- Go's UTF-8 validity of a byte string (every rune properly encoded). -/
def validUtf8 (l : List Nat) : Bool := validAux 0 l

/-- `SCW a r`: the byte string `a` strips to `r`, `r` is valid UTF-8, and
`a` is self-contained for the stripper — appending anything after `a`
strips to `r` followed by the stripped suffix.  Rows assembled by the
layout engine satisfy this, and it makes visible width additive. -/
def SCW (a r : List Nat) : Prop :=
  validUtf8 r = true ∧
  ∀ c, stripFrom .norm (a ++ c) = (stripFrom .norm c).map (r ++ ·)

/-- A one-column, escape-free, valid glyph (all border/shadow presets). -/
abbrev Glyph1 (g : List Nat) : Prop :=
  ¬ 0x1b ∈ g ∧ validUtf8 g = true ∧ countRunes g = 1

/-- Codes that a CSI scan consumes without terminating: every byte outside
the final-byte range 0x40-0x7E.  All SGR codes (digit strings) qualify. -/
abbrev CodesOk (codes : List (List Nat)) : Prop :=
  ∀ code ∈ codes, ∀ x ∈ code, ¬(0x40 ≤ x ∧ x ≤ 0x7E)

/-!
## Lemmas about the stripper
-/

theorem stripFrom_norm_append_noEsc {a : List Nat} (h : 0x1b ∉ a) (c : List Nat) :
    stripFrom .norm (a ++ c) = (stripFrom .norm c).map (a ++ ·) := by
  induction a with
  | nil =>
      simp
  | cons b t ih =>
      have hb : b ≠ 0x1b := by
        intro e; exact h (e ▸ List.mem_cons_self _ _)
      have ht : 0x1b ∉ t := fun m => h (List.mem_cons_of_mem _ m)
      rw [List.cons_append]
      show (if b = 0x1b then stripFrom .esc (t ++ c)
            else (stripFrom .norm (t ++ c)).map (b :: ·)) = _
      rw [if_neg hb, ih ht, Option.map_map]
      cases stripFrom .norm c <;> simp

theorem stripFrom_norm_of_noEsc {a : List Nat} (h : 0x1b ∉ a) :
    stripFrom .norm a = some a := by
  have := stripFrom_norm_append_noEsc h []
  simpa [stripFrom] using this

theorem stripANSI_eq_norm (s : List Nat) : stripANSI s = stripFrom .norm s := by
  by_cases h : 0x1b ∈ s
  · simp [stripANSI, h]
  · simp [stripANSI, h, stripFrom_norm_of_noEsc h]

theorem stripFrom_noEsc_output :
    ∀ (s : List Nat) (m : StripMode) (r : List Nat),
      stripFrom m s = some r → 0x1b ∉ r := by
  intro s
  induction s with
  | nil =>
      intro m r h
      cases m <;> simp [stripFrom] at h <;> subst h <;> simp
  | cons b t ih =>
      intro m r h
      cases m <;> simp only [stripFrom] at h
      case norm =>
        by_cases hb : b = 0x1b
        · exact ih _ _ (by simpa [hb] using h)
        · rw [if_neg hb] at h
          rcases Option.map_eq_some'.mp h with ⟨r', hr', rfl⟩
          intro hm
          rcases List.mem_cons.mp hm with h1 | h2
          · exact hb h1.symm
          · exact ih _ _ hr' h2
      case esc =>
        split at h
        · exact ih _ _ h
        · split at h
          · exact ih _ _ h
          · exact ih _ _ h
      case csi =>
        split at h
        · exact ih _ _ h
        · exact ih _ _ h
      case osc =>
        split at h
        · exact ih _ _ h
        · split at h
          · exact ih _ _ h
          · exact ih _ _ h
      case oscEsc =>
        split at h
        · exact ih _ _ h
        · split at h
          · exact ih _ _ h
          · split at h
            · exact ih _ _ h
            · exact ih _ _ h

/-!
## UTF-8 counting lemmas
-/

theorem validFirst_append {b0 : Nat} {rest : List Nat} (b : List Nat)
    (h : validFirst b0 rest = true) :
    validFirst b0 (rest ++ b) = true ∧ runeExtra b0 (rest ++ b) = runeExtra b0 rest := by
  rcases rest with _ | ⟨b1, _ | ⟨b2, _ | ⟨b3, rs⟩⟩⟩ <;>
    · unfold validFirst runeExtra at *
      split_ifs at * <;> simp_all

theorem validAux_append : ∀ (rest : List Nat) (k : Nat) (b : List Nat),
    validAux k rest = true → validAux 0 b = true → validAux k (rest ++ b) = true := by
  intro rest
  induction rest with
  | nil =>
      intro k b hk hb
      cases k with
      | zero => simpa using hb
      | succ k => simp [validAux] at hk
  | cons r rs ih =>
      intro k b hk hb
      cases k with
      | succ k =>
          rw [List.cons_append]
          simp only [validAux] at hk ⊢
          exact ih k b hk hb
      | zero =>
          rw [List.cons_append]
          simp only [validAux] at hk ⊢
          by_cases hv : validFirst r rs = true
          · have hVF := validFirst_append b hv
            rw [if_pos hv] at hk
            rw [hVF.1, hVF.2, if_pos rfl]
            exact ih _ b hk hb
          · rw [if_neg hv] at hk
            exact absurd hk (by simp)

theorem crAux_append : ∀ (rest : List Nat) (k : Nat) (b : List Nat),
    validAux k rest = true → crAux k (rest ++ b) = crAux k rest + crAux 0 b := by
  intro rest
  induction rest with
  | nil =>
      intro k b hk
      cases k with
      | zero => simp [crAux]
      | succ k => simp [validAux] at hk
  | cons r rs ih =>
      intro k b hk
      cases k with
      | succ k =>
          rw [List.cons_append]
          simp only [validAux] at hk
          simp only [crAux]
          exact ih k b hk
      | zero =>
          rw [List.cons_append]
          simp only [validAux] at hk
          simp only [crAux]
          by_cases hv : validFirst r rs = true
          · have hVF := validFirst_append b hv
            rw [if_pos hv] at hk
            rw [hVF.2]
            have := ih (runeExtra r rs) b hk
            omega
          · rw [if_neg hv] at hk
            exact absurd hk (by simp)

theorem validUtf8_append (a b : List Nat) (ha : validUtf8 a = true)
    (hb : validUtf8 b = true) : validUtf8 (a ++ b) = true :=
  validAux_append a 0 b ha hb

theorem countRunes_append (a b : List Nat) (ha : validUtf8 a = true) :
    countRunes (a ++ b) = countRunes a + countRunes b :=
  crAux_append a 0 b ha

theorem validUtf8_ascii : ∀ (l : List Nat), (∀ x ∈ l, x < 0x80) →
    validUtf8 l = true := by
  intro l
  induction l with
  | nil => intro _; rfl
  | cons b rest ih =>
      intro h
      have hb : b < 0x80 := h b (List.mem_cons_self _ _)
      show validAux 0 (b :: rest) = true
      simp only [validAux, validFirst, runeExtra, if_pos hb]
      exact ih fun x hx => h x (List.mem_cons_of_mem _ hx)

theorem countRunes_ascii : ∀ (l : List Nat), (∀ x ∈ l, x < 0x80) →
    countRunes l = l.length := by
  intro l
  induction l with
  | nil => intro _; rfl
  | cons b rest ih =>
      intro h
      have hb : b < 0x80 := h b (List.mem_cons_self _ _)
      show crAux 0 (b :: rest) = _
      simp only [crAux, runeExtra, if_pos hb, List.length_cons]
      have := ih fun x hx => h x (List.mem_cons_of_mem _ hx)
      simp only [countRunes] at this
      omega

theorem spaces_ascii (n : Nat) : ∀ x ∈ spaces n, x < 0x80 := by
  intro x hx
  have := List.eq_of_mem_replicate hx
  omega

theorem spaces_noEsc (n : Nat) : ¬ (0x1b ∈ spaces n) := by
  intro hx
  have := List.eq_of_mem_replicate hx
  omega

theorem countRunes_spaces (n : Nat) : countRunes (spaces n) = n := by
  rw [countRunes_ascii _ (spaces_ascii n)]
  exact List.length_replicate n _

/-!
## SCW closure lemmas
-/

theorem SCW_noEsc {a : List Nat} (h : ¬ 0x1b ∈ a) (hv : validUtf8 a = true) :
    SCW a a :=
  ⟨hv, fun c => stripFrom_norm_append_noEsc h c⟩

theorem SCW_strip {a r : List Nat} (h : SCW a r) :
    stripFrom .norm a = some r := by
  have := h.2 []
  simpa [stripFrom] using this

theorem SCW_visW {a r : List Nat} (h : SCW a r) :
    visibleWidth a = some (countRunes r) := by
  rw [visibleWidth, stripANSI_eq_norm, SCW_strip h, Option.map_some']

theorem SCW_append {a ra b rb : List Nat} (ha : SCW a ra) (hb : SCW b rb) :
    SCW (a ++ b) (ra ++ rb) := by
  refine ⟨validUtf8_append _ _ ha.1 hb.1, fun c => ?_⟩
  rw [List.append_assoc, ha.2 (b ++ c), hb.2 c, Option.map_map]
  cases stripFrom .norm c <;> simp

theorem SCW_spaces (n : Nat) : SCW (spaces n) (spaces n) :=
  SCW_noEsc (spaces_noEsc n) (validUtf8_ascii _ (spaces_ascii n))

theorem stripFrom_csi_skip : ∀ (l : List Nat) (r : List Nat),
    (∀ x ∈ l, ¬(0x40 ≤ x ∧ x ≤ 0x7E)) →
    stripFrom .csi (l ++ r) = stripFrom .csi r := by
  intro l
  induction l with
  | nil => intro r _; rfl
  | cons b t ih =>
      intro r h
      have hb := h b (List.mem_cons_self _ _)
      rw [List.cons_append]
      show (if 0x40 ≤ b ∧ b ≤ 0x7E then stripFrom .norm (t ++ r)
            else stripFrom .csi (t ++ r)) = _
      rw [if_neg hb]
      exact ih r fun x hx => h x (List.mem_cons_of_mem _ hx)

theorem joinSemi_mem : ∀ (codes : List (List Nat)) (x : Nat),
    x ∈ joinSemi codes → x = 0x3b ∨ ∃ code ∈ codes, x ∈ code := by
  intro codes
  induction codes with
  | nil => intro x hx; simp [joinSemi] at hx
  | cons c cs ih =>
      intro x hx
      rw [joinSemi] at hx
      rcases List.mem_append.mp hx with h1 | h2
      · exact Or.inr ⟨c, List.mem_cons_self _ _, h1⟩
      · rcases List.mem_flatten.mp h2 with ⟨d, hd, hxd⟩
        rcases List.mem_map.mp hd with ⟨code, hcode, rfl⟩
        rcases List.mem_cons.mp hxd with rfl | hxc
        · exact Or.inl rfl
        · exact Or.inr ⟨code, List.mem_cons_of_mem _ hcode, hxc⟩

theorem SCW_wrap {g rg : List Nat} (codes : List (List Nat)) (enabled : Bool)
    (hc : CodesOk codes) (hg : SCW g rg) :
    SCW (wrapCodes enabled g codes) rg := by
  rw [wrapCodes]
  split
  · exact hg
  · refine ⟨hg.1, fun c => ?_⟩
    have hok : ∀ x ∈ joinSemi codes, ¬(0x40 ≤ x ∧ x ≤ 0x7E) := by
      intro x hx
      rcases joinSemi_mem codes x hx with rfl | ⟨code, hcode, hxc⟩
      · omega
      · exact hc code hcode x hxc
    have hR : cReset = [0x1b, 0x5b, 0x30, 0x6d] := by decide
    simp only [hR, List.append_assoc, List.cons_append, List.nil_append]
    show stripFrom .csi (joinSemi codes ++ (0x6d :: (g ++ (0x1b :: 0x5b :: 0x30 :: 0x6d :: c)))) = _
    rw [stripFrom_csi_skip _ _ hok]
    show stripFrom .norm (g ++ (0x1b :: 0x5b :: 0x30 :: 0x6d :: c)) = _
    rw [hg.2]
    show (stripFrom .csi (0x30 :: 0x6d :: c)).map _ = _
    show (stripFrom .csi (0x6d :: c)).map _ = _
    show (stripFrom .norm c).map _ = _
    rfl

theorem joinSemi_eq_intercalate : ∀ (cs : List (List Nat)),
    joinSemi cs = List.intercalate [0x3b] cs := by
  intro cs
  induction cs with
  | nil => rfl
  | cons c cs ih =>
      cases cs with
      | nil => simp [joinSemi, List.intercalate]
      | cons d ds =>
          rw [List.intercalate, List.intersperse_cons_cons, List.flatten_cons,
            List.flatten_cons]
          rw [List.intercalate] at ih
          rw [← ih]
          simp [joinSemi]

/-!
## Lemmas about the final assembly loop
-/

theorem intercalate_cons_cons_nl (x y : List Nat) (t : List (List Nat)) :
    List.intercalate [0x0a] (x :: y :: t)
      = x ++ [0x0a] ++ List.intercalate [0x0a] (y :: t) := by
  rw [List.intercalate, List.intersperse_cons_cons, List.flatten_cons,
    List.flatten_cons, List.intercalate]
  simp

theorem rowsOut_eq_intercalate (hs : Bool) (bb : Int) (mL mR : List Nat)
    (n : Nat)
    (hdec : ∀ i, i < n →
      (if hs then (if i < n - 1 then ([0x0a] : List Nat) else [])
       else if 0 ≤ bb ∧ (i : Int) = bb then [] else [0x0a])
      = if i < n - 1 then [0x0a] else []) :
    ∀ (rows : List (List Nat)) (i : Nat), rows ≠ [] → i + rows.length = n →
    rowsOut hs bb mL mR n i rows
      = List.intercalate [0x0a] (rows.map fun r => mL ++ r ++ mR) := by
  intro rows
  induction rows with
  | nil => intro i hne _; exact absurd rfl hne
  | cons r rs ih =>
      intro i _ hn
      rw [rowsOut]
      rw [hdec i (by simp at hn; omega)]
      cases rs with
      | nil =>
          have : ¬ i < n - 1 := by simp at hn; omega
          rw [if_neg this]
          simp [rowsOut, List.intercalate]
      | cons r2 rs2 =>
          have hlt : i < n - 1 := by simp at hn; omega
          rw [if_pos hlt]
          rw [ih (i + 1) (by simp) (by simp at hn ⊢; omega)]
          simp [intercalate_cons_cons_nl, List.append_assoc]

theorem rowsOut_all_nl (mL mR : List Nat) (n : Nat) :
    ∀ (rows : List (List Nat)) (i : Nat),
    rowsOut false (-1) mL mR n i rows
      = (rows.map fun r => mL ++ r ++ mR ++ [0x0a]).flatten := by
  intro rows
  induction rows with
  | nil => intro i; rfl
  | cons r rs ih =>
      intro i
      rw [rowsOut, ih (i + 1)]
      have : ¬ ((0 : Int) ≤ -1 ∧ (i : Int) = -1) := by omega
      rw [if_neg this]
      simp

theorem flatten_nl_eq (mL mR : List Nat) :
    ∀ (rows : List (List Nat)), rows ≠ [] →
    (rows.map fun r => mL ++ r ++ mR ++ [0x0a]).flatten
      = List.intercalate [0x0a] (rows.map fun r => mL ++ r ++ mR) ++ [0x0a] := by
  intro rows
  induction rows with
  | nil => intro hne; exact absurd rfl hne
  | cons r rs ih =>
      intro _
      cases rs with
      | nil => simp [List.intercalate]
      | cons r2 rs2 =>
          rw [List.map_cons, List.flatten_cons, ih (by simp)]
          simp [intercalate_cons_cons_nl, List.append_assoc]

theorem splitNL_ne_nil : ∀ (c : List Nat), splitNL c ≠ [] := by
  intro c
  induction c with
  | nil => simp [splitNL]
  | cons b r ih =>
      rw [splitNL]
      split
      · simp
      · cases h : splitNL r with
        | nil => exact absurd h ih
        | cons x t => simp

theorem mapM_some_length {α β : Type} (f : α → Option β) :
    ∀ (l : List α) (res : List β), l.mapM f = some res → res.length = l.length := by
  intro l
  induction l with
  | nil =>
      intro res h
      have h2 : some ([] : List β) = some res := h
      cases h2
      rfl
  | cons a t ih =>
      intro res h
      rw [List.mapM_cons] at h
      rcases Option.bind_eq_some.mp h with ⟨b, _, h2⟩
      rcases Option.bind_eq_some.mp h2 with ⟨bs, hbs, h3⟩
      simp at h3
      subst h3
      simp [ih bs hbs]

theorem contentRows_ne_nil {e : Bool} {b : Box} {lv rv : List Nat} {iw : Nat}
    {lines rows : List (List Nat)}
    (h : contentRows e b lv rv iw lines = some rows) (hl : lines ≠ []) :
    rows ≠ [] := by
  rw [contentRows] at h
  have := mapM_some_length _ _ _ h
  intro hr
  subst hr
  simp at this
  rcases lines with _ | _
  · exact hl rfl
  · simp at this

theorem append5_ne_nil {α : Type} {A B C D E : List α} (hC : C ≠ []) :
    A ++ B ++ C ++ D ++ E ≠ [] := by
  intro h
  rcases List.append_eq_nil.mp h with ⟨h1, _⟩
  rcases List.append_eq_nil.mp h1 with ⟨h2, _⟩
  rcases List.append_eq_nil.mp h2 with ⟨_, h3⟩
  exact hC h3

theorem boxRowsOf_ne_nil {e : Bool} {b : Box} {lines rows : List (List Nat)}
    (h : boxRowsOf e b lines = some rows) (hl : lines ≠ []) : rows ≠ [] := by
  simp only [boxRowsOf, Option.bind_eq_bind', Option.bind_eq_some, Option.pure_def,
    Option.some_inj] at h
  obtain ⟨ws, _, lv, _, rv, _, h⟩ := h
  split at h
  · simp only [Option.some_bind] at h
    obtain ⟨content, hc, h⟩ := Option.bind_eq_some.mp h
    have hcne := contentRows_ne_nil hc hl
    split at h
    · simp only [Option.some_bind, Option.some_inj] at h
      rw [← h]; exact append5_ne_nil hcne
    · obtain ⟨bl, _, h⟩ := Option.bind_eq_some.mp h
      obtain ⟨br, _, h⟩ := Option.bind_eq_some.mp h
      simp only [Option.some_bind, Option.some_inj] at h
      rw [← h]; exact append5_ne_nil hcne
  · obtain ⟨tl, _, h⟩ := Option.bind_eq_some.mp h
    obtain ⟨tr, _, h⟩ := Option.bind_eq_some.mp h
    simp only [Option.some_bind] at h
    obtain ⟨content, hc, h⟩ := Option.bind_eq_some.mp h
    have hcne := contentRows_ne_nil hc hl
    split at h
    · simp only [Option.some_bind, Option.some_inj] at h
      rw [← h]; exact append5_ne_nil hcne
    · obtain ⟨bl, _, h⟩ := Option.bind_eq_some.mp h
      obtain ⟨br, _, h⟩ := Option.bind_eq_some.mp h
      simp only [Option.some_bind, Option.some_inj] at h
      rw [← h]; exact append5_ne_nil hcne

theorem applyShadow_ne_nil {e : Bool} {b : Box} {rows res : List (List Nat)}
    {w : Nat} (h : applyShadow e b rows w = some res) (hne : rows ≠ []) :
    res ≠ [] := by
  cases hs : b.shadow with
  | none =>
      simp only [applyShadow, hs] at h
      cases h
      exact hne
  | some sty =>
      have hlen : ¬ rows.length = 0 := by simpa using hne
      simp only [applyShadow, hs, if_neg hlen, Option.bind_eq_bind',
        Option.bind_eq_some, Option.pure_def, Option.some_inj] at h
      obtain ⟨vw, _, hw, _, hres⟩ := h
      cases hp : b.shadowPos <;> rw [hp] at hres <;>
        · simp only [Option.some_inj] at hres
          rw [← hres]
          simp

/-!
## Width helpers for the shadow overlay
-/

theorem SCW_width_append {a ra b rb : List Nat} (ha : SCW a ra) (hb : SCW b rb) :
    visibleWidth (a ++ b) = some (countRunes ra + countRunes rb) := by
  rw [SCW_visW (SCW_append ha hb), countRunes_append _ _ ha.1]

theorem Glyph1_SCW {g : List Nat} (h : Glyph1 g) : SCW g g :=
  SCW_noEsc h.1 h.2.1

theorem Glyph1_visW {g : List Nat} (h : Glyph1 g) : visibleWidth g = some 1 := by
  rw [SCW_visW (Glyph1_SCW h), h.2.2]

theorem rep_noEsc {g : List Nat} (h : ¬ 0x1b ∈ g) (n : Nat) :
    ¬ 0x1b ∈ rep g n := by
  intro hx
  rw [rep] at hx
  rcases List.mem_flatten.mp hx with ⟨l, hl, hxl⟩
  rw [List.eq_of_mem_replicate hl] at hxl
  exact h hxl

theorem rep_valid {g : List Nat} (h : validUtf8 g = true) (n : Nat) :
    validUtf8 (rep g n) = true := by
  induction n with
  | zero => rfl
  | succ n ih =>
      rw [rep, List.replicate_succ, List.flatten_cons]
      exact validUtf8_append _ _ h ih

theorem rep_count {g : List Nat} (hv : validUtf8 g = true) (n : Nat) :
    countRunes (rep g n) = n * countRunes g := by
  induction n with
  | zero => simp [rep, countRunes, crAux]
  | succ n ih =>
      rw [rep, List.replicate_succ, List.flatten_cons]
      rw [countRunes_append _ _ hv]
      rw [show (rep g n = (List.replicate n g).flatten) from rfl] at ih
      rw [ih, Nat.succ_mul]
      omega

theorem headD_mem {α : Type} {l : List α} (h : l ≠ []) (d : α) :
    l.headD d ∈ l := by
  cases l with
  | nil => exact absurd rfl h
  | cons a t => simp

theorem getD_mem {α : Type} : ∀ (l : List α) (n : Nat) (d : α),
    n < l.length → l.getD n d ∈ l := by
  intro l
  induction l with
  | nil => intro n d h; simp at h
  | cons a t ih =>
      intro n d h
      cases n with
      | zero => simp
      | succ n =>
          rw [List.getD_cons_succ]
          exact List.mem_cons_of_mem _ (ih n d (by simp at h; omega))

/-!
## Width characterization of the layout rows
-/

theorem mapM_option_append {α β : Type} (f : α → Option β) :
    ∀ (l1 l2 : List α) (r1 r2 : List β), l1.mapM f = some r1 →
    l2.mapM f = some r2 → (l1 ++ l2).mapM f = some (r1 ++ r2) := by
  intro l1
  induction l1 with
  | nil =>
      intro l2 r1 r2 h1 h2
      have h3 : some ([] : List β) = some r1 := h1
      cases h3
      simpa using h2
  | cons a t ih =>
      intro l2 r1 r2 h1 h2
      rw [List.mapM_cons] at h1
      rcases Option.bind_eq_some.mp h1 with ⟨w, hw, h3⟩
      rcases Option.bind_eq_some.mp h3 with ⟨ws, hws, h4⟩
      simp at h4
      subst h4
      rw [List.cons_append, List.mapM_cons, hw]
      simp only [Option.bind_eq_bind', Option.some_bind]
      rw [ih l2 ws r2 hws h2]
      simp

theorem mapM_option_replicate {α β : Type} (f : α → Option β) (x : α) (w : β)
    (h : f x = some w) :
    ∀ n, (List.replicate n x).mapM f = some (List.replicate n w) := by
  intro n
  induction n with
  | zero => rfl
  | succ n ih =>
      rw [List.replicate_succ, List.mapM_cons, h]
      simp only [Option.bind_eq_bind', Option.some_bind]
      rw [ih]
      simp [List.replicate_succ]

theorem mapM_option_singleton {α β : Type} (f : α → Option β) (x : α) (w : β)
    (h : f x = some w) : ([x]).mapM f = some [w] := by
  rw [List.mapM_cons, h]
  rfl

theorem le_maxVis : ∀ (ws : List Nat) (w : Nat), w ∈ ws → w ≤ maxVis ws := by
  have step : ∀ (ws : List Nat) (a : Nat),
      a ≤ ws.foldl (fun x y => if y > x then y else x) a := by
    intro ws
    induction ws with
    | nil => intro a; simp
    | cons b t ih =>
        intro a
        simp only [List.foldl_cons]
        by_cases hba : b > a
        · rw [if_pos hba]; exact le_trans (le_of_lt hba) (ih b)
        · rw [if_neg hba]; exact ih a
  have mono : ∀ (ws : List Nat) (a c : Nat), a ≤ c →
      ws.foldl (fun x y => if y > x then y else x) a
        ≤ ws.foldl (fun x y => if y > x then y else x) c := by
    intro ws
    induction ws with
    | nil => intro a c h; simpa using h
    | cons b t ih =>
        intro a c h
        simp only [List.foldl_cons]
        apply ih
        split_ifs <;> omega
  intro ws
  induction ws with
  | nil => intro w h; simp at h
  | cons a t ih =>
      intro w h
      rcases List.mem_cons.mp h with rfl | ht
      · refine le_trans (step t w) ?_
        rw [maxVis, List.foldl_cons]
        apply mono
        split_ifs <;> omega
      · refine le_trans (ih w ht) ?_
        rw [maxVis, maxVis, List.foldl_cons]
        apply mono
        omega

theorem subGlyph_SCW {hide : Bool} {g lv : List Nat}
    (hclean : ¬ 0x1b ∈ g ∧ validUtf8 g = true)
    (h : subGlyph hide g = some lv) :
    ∃ lvr, SCW lv lvr ∧ countRunes lvr = countRunes g := by
  rw [subGlyph] at h
  split at h
  · rw [SCW_visW (SCW_noEsc hclean.1 hclean.2)] at h
    simp at h
    subst h
    exact ⟨spaces (countRunes g), SCW_spaces _, countRunes_spaces _⟩
  · cases h
    exact ⟨g, SCW_noEsc hclean.1 hclean.2, rfl⟩

theorem padPair_sum (sc : Bool) (availW vis : Nat) (h : vis ≤ availW) :
    (padPair sc availW vis).1 + vis + (padPair sc availW vis).2 = availW := by
  rw [padPair]
  split
  · have := Nat.div_le_self (availW - vis) 2
    simp only
    omega
  · simp only
    omega

/-!
## Claim theorems
-/

/-- C1: the spec says rendering never hits a fatal condition for any content,
including truncated escape sequences.  The code disagrees: the CSI loop of
stripANSI indexes one past the end on input ending in ESC `[`, a Go runtime
panic (modelled as `none`), and render inherits it via visibleWidth. -/
theorem stripANSI_truncated_csi_panics :
    stripANSI (goStr "a\x1b[") = none ∧
    visibleWidth (goStr "a\x1b[") = none ∧
    render false boxNew (goStr "a\x1b[") = none := by
  refine ⟨by decide, by decide, by decide⟩

/-- C2 (amended): rows are joined by single line breaks; the last row gets
no trailing break when the bottom border is visible or a shadow is present,
but with the bottom border disabled and no shadow every row, including the
last, is followed by a line break (the legacy behavior the code comments
call out), all before the bottom margin newlines. -/
theorem newline_policy : ∀ (e : Bool) (b : Box) (content out : List Nat),
    render e b content = some out →
    ∃ boxRows rows w,
      boxRowsOf e b (if b.centerTrim = true then
          List.map trimSpace (splitNL content) else splitNL content)
        = some boxRows ∧
      visibleWidth (boxRows.headD []) = some w ∧
      (if b.shadow.isSome then applyShadow e b boxRows w else some boxRows)
        = some rows ∧
      rows ≠ [] ∧
      out = List.replicate b.marginTop 0x0a
        ++ List.intercalate [0x0a]
             (rows.map fun r => spaces b.marginLeft ++ r ++ spaces b.marginRight)
        ++ (if b.shadow.isNone ∧ b.hideBottom then [0x0a] else [])
        ++ List.replicate b.marginBottom 0x0a := by
  intro e b content out h
  simp only [render, Option.bind_eq_bind', Option.bind_eq_some, Option.pure_def,
    Option.some_inj] at h
  obtain ⟨boxRows, hbr, h⟩ := h
  have hlines :
      (if b.centerTrim = true then List.map trimSpace (splitNL content)
       else splitNL content) ≠ [] := by
    split
    · simpa using splitNL_ne_nil content
    · exact splitNL_ne_nil content
  have hbne := boxRowsOf_ne_nil hbr hlines
  have hpos : 0 < boxRows.length := List.length_pos.mpr hbne
  rw [if_pos hpos] at h
  obtain ⟨w, hwB, h⟩ := Option.bind_eq_some.mp h
  cases hs : b.shadow with
  | some sty =>
      rw [hs] at h
      simp only [Option.isSome_some, eq_self_iff_true, if_true] at h
      obtain ⟨rows2, hap, hout⟩ := Option.bind_eq_some.mp h
      have hr2 := applyShadow_ne_nil hap hbne
      refine ⟨boxRows, rows2, w, hbr, hwB, by simpa using hap, hr2, ?_⟩
      replace hout := (Option.some_inj.mp hout).symm
      rw [hout,
        rowsOut_eq_intercalate true _ _ _ rows2.length (fun i _ => rfl) rows2 0 hr2
          (by simp)]
      simp [hs, List.append_assoc]
  | none =>
      rw [hs] at h
      simp only [Option.isSome_none, Bool.false_eq_true, if_false, Option.some_bind,
        Option.some_inj] at h
      replace h := h.symm
      cases hB : b.hideBottom with
      | true =>
          rw [hB] at h
          rw [if_neg (by simp : ¬ ¬ (true = true))] at h
          refine ⟨boxRows, boxRows, w, hbr, hwB, by simp, hbne, ?_⟩
          rw [h, rowsOut_all_nl _ _ _ boxRows 0, flatten_nl_eq _ _ boxRows hbne]
          simp [hs, hB, List.append_assoc]
      | false =>
          rw [hB] at h
          rw [if_pos (by simp : ¬ (false = true))] at h
          have hdec : ∀ i, i < boxRows.length →
              (if (false : Bool) then
                 (if i < boxRows.length - 1 then ([0x0a] : List Nat) else [])
               else if 0 ≤ ((boxRows.length : Int) - 1) ∧
                   (i : Int) = (boxRows.length : Int) - 1 then []
               else [0x0a])
              = if i < boxRows.length - 1 then [0x0a] else [] := by
            intro i hi
            simp only [Bool.false_eq_true, if_false]
            split_ifs <;> first | rfl | (exfalso; omega)
          refine ⟨boxRows, boxRows, w, hbr, hwB, by simp, hbne, ?_⟩
          rw [h,
            rowsOut_eq_intercalate false _ _ _ boxRows.length hdec boxRows 0 hbne
              (by simp)]
          simp [hs, hB, List.append_assoc]

theorem newline_policy_witness :
    ∃ boxRows rows w,
      boxRowsOf false boxNew (if boxNew.centerTrim = true then
          List.map trimSpace (splitNL (goStr "hi")) else splitNL (goStr "hi"))
        = some boxRows ∧
      visibleWidth (boxRows.headD []) = some w ∧
      (if boxNew.shadow.isSome then applyShadow false boxNew boxRows w
       else some boxRows) = some rows ∧
      rows ≠ [] ∧
      goStr "┌──┐\n│hi│\n└──┘" = List.replicate boxNew.marginTop 0x0a
        ++ List.intercalate [0x0a]
             (rows.map fun r => spaces boxNew.marginLeft ++ r ++ spaces boxNew.marginRight)
        ++ (if boxNew.shadow.isNone ∧ boxNew.hideBottom then [0x0a] else [])
        ++ List.replicate boxNew.marginBottom 0x0a :=
  newline_policy false boxNew (goStr "hi") (goStr "┌──┐\n│hi│\n└──┘") (by decide)

/-- C2 counterexample: with the bottom border disabled, no shadow and no
bottom margin, the rendered output still ends with a line break, so the
last structural row does receive a trailing line break, contrary to the
claim. -/
theorem newline_policy_counterexample :
    render false boxNew.DisableBottom (goStr "hi") = some (goStr "┌──┐\n│hi│\n") ∧
    (goStr "┌──┐\n│hi│\n").getLast? = some 0x0a ∧
    boxNew.DisableBottom.marginBottom = 0 ∧
    boxNew.DisableBottom.shadow = none := by
  refine ⟨by decide, by decide, rfl, rfl⟩

/-- C5 counterexample: with a shadow style whose glyphs are two columns
wide, the first row of the overlay grows by two visible columns, not one:
the box rows have width 4 but the overlaid first row has width 6. -/
theorem shadow_widen_counterexample :
    applyShadow false
      { boxNew with
          shadow := some ⟨goStr "░░", goStr "░░", goStr "░░", goStr "░░",
                          goStr "░░", goStr "░░"⟩,
          shadowPos := .bottomRight, shadowCodes := [cBrightBlack] }
      [goStr "┌──┐", goStr "│hi│", goStr "└──┘"] 4
      = some [goStr "┌──┐  ", goStr "│hi│░░", goStr "└──┘░░", goStr "  ░░░░"] ∧
    visibleWidth (goStr "┌──┐") = some 4 ∧
    visibleWidth (goStr "┌──┐  ") = some 6 := by
  refine ⟨by decide, by decide, by decide⟩

/-- C5 (amended): for rows of common visible width W ≥ 2 that are
escape-complete (as the layout engine produces) and shadow glyphs that are
escape-free, valid, single-column (as in every predefined shadow style),
with CSI-safe shadow codes, the overlay returns exactly one more row than
its input and every output row has visible width W + 1. -/
theorem shadow_adds_one_row_one_column :
    ∀ (e : Bool) (pos : ShadowPosition) (sty : ShadowStyle)
      (codes : List (List Nat)) (rows : List (List Nat)) (W : Nat),
    CodesOk codes →
    Glyph1 sty.topLeft → Glyph1 sty.topRight → Glyph1 sty.bottomLeft →
    Glyph1 sty.bottomRight → Glyph1 sty.horizontal → Glyph1 sty.vertical →
    (∀ r ∈ rows, ∃ rr, SCW r rr ∧ countRunes rr = W) →
    rows ≠ [] → 2 ≤ W →
    ∃ res, applyShadow e
        { boxNew with shadow := some sty, shadowPos := pos, shadowCodes := codes }
        rows W = some res ∧
      res.length = rows.length + 1 ∧
      ∀ r ∈ res, visibleWidth r = some (W + 1) := by
  intro e pos sty codes rows W hc hTL hTR hBL hBR hH hV hrows hne hW
  have hlen0 : ¬ rows.length = 0 := by simpa using hne
  have wVert : visibleWidth sty.vertical = some 1 := Glyph1_visW hV
  have wHor : visibleWidth sty.horizontal = some 1 := Glyph1_visW hH
  have hS1 : SCW (spaces 1) (spaces 1) := SCW_spaces 1
  have cS1 : countRunes (spaces 1) = 1 := countRunes_spaces 1
  have hWrapV : SCW (wrapCodes e sty.vertical codes) sty.vertical :=
    SCW_wrap codes e hc (Glyph1_SCW hV)
  have hWrapTL : SCW (wrapCodes e sty.topLeft codes) sty.topLeft :=
    SCW_wrap codes e hc (Glyph1_SCW hTL)
  have hWrapTR : SCW (wrapCodes e sty.topRight codes) sty.topRight :=
    SCW_wrap codes e hc (Glyph1_SCW hTR)
  have hWrapBL : SCW (wrapCodes e sty.bottomLeft codes) sty.bottomLeft :=
    SCW_wrap codes e hc (Glyph1_SCW hBL)
  have hWrapBR : SCW (wrapCodes e sty.bottomRight codes) sty.bottomRight :=
    SCW_wrap codes e hc (Glyph1_SCW hBR)
  have hRepSCW : SCW (rep sty.horizontal (W - 2)) (rep sty.horizontal (W - 2)) :=
    SCW_noEsc (rep_noEsc hH.1 _) (rep_valid hH.2.1 _)
  have hRepCount : countRunes (rep sty.horizontal (W - 2)) = W - 2 := by
    rw [rep_count hH.2.1, hH.2.2, Nat.mul_one]
  have harith : (W - 2 * 1) / 1 = W - 2 := by simp
  -- the two flavours of horizontal shadow bar
  have hBarBot : SCW (sty.bottomLeft ++ rep sty.horizontal (W - 2) ++ sty.bottomRight)
      (sty.bottomLeft ++ rep sty.horizontal (W - 2) ++ sty.bottomRight) :=
    SCW_append (SCW_append (Glyph1_SCW hBL) hRepSCW) (Glyph1_SCW hBR)
  have cBarBot : countRunes
      (sty.bottomLeft ++ rep sty.horizontal (W - 2) ++ sty.bottomRight) = W := by
    rw [countRunes_append _ _ (SCW_append (Glyph1_SCW hBL) hRepSCW).1,
      countRunes_append _ _ hBL.2.1, hBL.2.2, hBR.2.2, hRepCount]
    omega
  have hBarTop : SCW (sty.topLeft ++ rep sty.horizontal (W - 2) ++ sty.topRight)
      (sty.topLeft ++ rep sty.horizontal (W - 2) ++ sty.topRight) :=
    SCW_append (SCW_append (Glyph1_SCW hTL) hRepSCW) (Glyph1_SCW hTR)
  have cBarTop : countRunes
      (sty.topLeft ++ rep sty.horizontal (W - 2) ++ sty.topRight) = W := by
    rw [countRunes_append _ _ (SCW_append (Glyph1_SCW hTL) hRepSCW).1,
      countRunes_append _ _ hTL.2.1, hTL.2.2, hTR.2.2, hRepCount]
    omega
  cases pos
  case bottomRight =>
    simp only [applyShadow, Option.bind_eq_bind', wVert, wHor, Option.some_bind,
      if_neg hlen0, Nat.mul_one, Nat.div_one,
      if_pos (by omega : (1 : Nat) > 0)]
    refine ⟨_, rfl, ?_, ?_⟩
    · by_cases hgt : rows.length > 1 <;> simp [hgt] <;> omega
    · intro r hr
      by_cases hgt : rows.length > 1 <;>
        simp only [hgt, if_true, if_false, List.mem_append, List.mem_cons,
          List.mem_singleton, List.mem_map, List.not_mem_nil, false_or,
          or_false] at hr
      · rcases hr with (rfl | rfl | ⟨x, hx, rfl⟩) | rfl
        · obtain ⟨rr, hS, hcnt⟩ := hrows _ (headD_mem hne [])
          rw [SCW_width_append hS hS1, hcnt, cS1]
        · obtain ⟨rr, hS, hcnt⟩ := hrows _ (getD_mem rows 1 [] (by omega))
          rw [SCW_width_append hS hWrapTR, hcnt, hTR.2.2]
        · obtain ⟨rr, hS, hcnt⟩ := hrows _ (List.mem_of_mem_drop hx)
          rw [SCW_width_append hS hWrapV, hcnt, hV.2.2]
        · rw [SCW_width_append hS1 (SCW_wrap codes e hc hBarBot), cS1, cBarBot]
          exact congrArg some (by omega)
      · rcases hr with rfl | rfl
        · obtain ⟨rr, hS, hcnt⟩ := hrows _ (headD_mem hne [])
          rw [SCW_width_append hS hS1, hcnt, cS1]
        · rw [SCW_width_append hS1 (SCW_wrap codes e hc hBarBot), cS1, cBarBot]
          exact congrArg some (by omega)
  case bottomLeft =>
    simp only [applyShadow, Option.bind_eq_bind', wVert, wHor, Option.some_bind,
      if_neg hlen0, Nat.mul_one, Nat.div_one,
      if_pos (by omega : (1 : Nat) > 0)]
    refine ⟨_, rfl, ?_, ?_⟩
    · by_cases hgt : rows.length > 1 <;> simp [hgt] <;> omega
    · intro r hr
      by_cases hgt : rows.length > 1 <;>
        simp only [hgt, if_true, if_false, List.mem_append, List.mem_cons,
          List.mem_singleton, List.mem_map, List.not_mem_nil, false_or,
          or_false] at hr
      · rcases hr with (rfl | rfl | ⟨x, hx, rfl⟩) | rfl
        · obtain ⟨rr, hS, hcnt⟩ := hrows _ (headD_mem hne [])
          rw [SCW_width_append hS1 hS, cS1, hcnt]
          exact congrArg some (by omega)
        · obtain ⟨rr, hS, hcnt⟩ := hrows _ (getD_mem rows 1 [] (by omega))
          rw [SCW_width_append hWrapTL hS, hcnt, hTL.2.2]
          exact congrArg some (by omega)
        · obtain ⟨rr, hS, hcnt⟩ := hrows _ (List.mem_of_mem_drop hx)
          rw [SCW_width_append hWrapV hS, hcnt, hV.2.2]
          exact congrArg some (by omega)
        · rw [SCW_width_append (SCW_wrap codes e hc hBarBot) hS1, cS1, cBarBot]
      · rcases hr with rfl | rfl
        · obtain ⟨rr, hS, hcnt⟩ := hrows _ (headD_mem hne [])
          rw [SCW_width_append hS1 hS, cS1, hcnt]
          exact congrArg some (by omega)
        · rw [SCW_width_append (SCW_wrap codes e hc hBarBot) hS1, cS1, cBarBot]
  case topRight =>
    simp only [applyShadow, Option.bind_eq_bind', wVert, wHor, Option.some_bind,
      if_neg hlen0, Nat.mul_one, Nat.div_one,
      if_pos (by omega : (1 : Nat) > 0)]
    refine ⟨_, rfl, ?_, ?_⟩
    · simp [List.length_take]
      omega
    · intro r hr
      by_cases hgt : rows.length > 1 <;>
        simp only [hgt, if_true, if_false, List.mem_cons, List.mem_append,
          List.mem_singleton, List.mem_map, List.not_mem_nil, or_false,
          false_or] at hr <;>
        rcases hr with rfl | ⟨x, hx, rfl⟩ | rfl
      · rw [SCW_width_append hS1 (SCW_wrap codes e hc hBarTop), cS1, cBarTop]
        exact congrArg some (by omega)
      · obtain ⟨rr, hS, hcnt⟩ := hrows _ (List.mem_of_mem_take hx)
        rw [SCW_width_append hS hWrapV, hcnt, hV.2.2]
      · obtain ⟨rr, hS, hcnt⟩ := hrows _ (getD_mem rows (rows.length - 1) [] (by omega))
        rw [SCW_width_append hS hWrapBR, hcnt, hBR.2.2]
      · rw [SCW_width_append hS1 (SCW_wrap codes e hc hBarTop), cS1, cBarTop]
        exact congrArg some (by omega)
      · obtain ⟨rr, hS, hcnt⟩ := hrows _ (List.mem_of_mem_take hx)
        rw [SCW_width_append hS hWrapV, hcnt, hV.2.2]
      · obtain ⟨rr, hS, hcnt⟩ := hrows _ (headD_mem hne [])
        rw [SCW_width_append hS hWrapBR, hcnt, hBR.2.2]
  case topLeft =>
    simp only [applyShadow, Option.bind_eq_bind', wVert, wHor, Option.some_bind,
      if_neg hlen0, Nat.mul_one, Nat.div_one,
      if_pos (by omega : (1 : Nat) > 0)]
    refine ⟨_, rfl, ?_, ?_⟩
    · simp [List.length_take]
      omega
    · intro r hr
      by_cases hgt : rows.length > 1 <;>
        simp only [hgt, if_true, if_false, List.mem_cons, List.mem_append,
          List.mem_singleton, List.mem_map, List.not_mem_nil, or_false,
          false_or] at hr <;>
        rcases hr with rfl | ⟨x, hx, rfl⟩ | rfl
      · rw [SCW_width_append (SCW_wrap codes e hc hBarTop) hS1, cS1, cBarTop]
      · obtain ⟨rr, hS, hcnt⟩ := hrows _ (List.mem_of_mem_take hx)
        rw [SCW_width_append hWrapV hS, hcnt, hV.2.2]
        exact congrArg some (by omega)
      · obtain ⟨rr, hS, hcnt⟩ := hrows _ (getD_mem rows (rows.length - 1) [] (by omega))
        rw [SCW_width_append hWrapBL hS, hcnt, hBL.2.2]
        exact congrArg some (by omega)
      · rw [SCW_width_append (SCW_wrap codes e hc hBarTop) hS1, cS1, cBarTop]
      · obtain ⟨rr, hS, hcnt⟩ := hrows _ (List.mem_of_mem_take hx)
        rw [SCW_width_append hWrapV hS, hcnt, hV.2.2]
        exact congrArg some (by omega)
      · obtain ⟨rr, hS, hcnt⟩ := hrows _ (headD_mem hne [])
        rw [SCW_width_append hWrapBL hS, hcnt, hBL.2.2]
        exact congrArg some (by omega)

theorem shadow_adds_one_row_one_column_witness :
    ∃ res, applyShadow false
        { boxNew with shadow := some shadowLight,
                      shadowPos := ShadowPosition.bottomRight,
                      shadowCodes := [cBrightBlack] }
        [goStr "┌──┐", goStr "│hi│", goStr "└──┘"] 4 = some res ∧
      res.length = [goStr "┌──┐", goStr "│hi│", goStr "└──┘"].length + 1 ∧
      ∀ r ∈ res, visibleWidth r = some (4 + 1) :=
  shadow_adds_one_row_one_column false ShadowPosition.bottomRight shadowLight
    [cBrightBlack]
    [goStr "┌──┐", goStr "│hi│", goStr "└──┘"] 4
    (by decide) (by decide) (by decide) (by decide) (by decide) (by decide)
    (by decide)
    (by intro r hr
        fin_cases hr
        · exact ⟨goStr "┌──┐", SCW_noEsc (by decide) (by decide), by decide⟩
        · exact ⟨goStr "│hi│", SCW_noEsc (by decide) (by decide), by decide⟩
        · exact ⟨goStr "└──┘", SCW_noEsc (by decide) (by decide), by decide⟩)
    (by decide) (by decide)


/-- C3: centered lines narrower than the available width get
leftExtra = (availableWidth - width) / 2 by floor division and
rightExtra = total - leftExtra, the odd remainder going right; in
particular the two-line centered box puts `hi` one column from the left
and two from the right. -/
theorem center_floor_division_left_bias :
    (∀ availW vis : Nat, vis < availW →
      padPair true availW vis
        = ((availW - vis) / 2, (availW - vis) - (availW - vis) / 2)) ∧
    render false boxNew.Center (goStr "hello\nhi")
      = some (goStr "┌─────┐\n│hello│\n│ hi  │\n└─────┘") ∧
    (splitNL (goStr "┌─────┐\n│hello│\n│ hi  │\n└─────┘")).getD 2 []
      = goStr "│ hi  │" := by
  refine ⟨fun availW vis h => ?_, by decide, by decide⟩
  rw [padPair, if_pos ⟨rfl, h⟩]

theorem center_floor_division_left_bias_witness :
    padPair true 5 2 = ((5 - 2) / 2, (5 - 2) - (5 - 2) / 2) :=
  center_floor_division_left_bias.1 5 2 (by decide)

/-- C4: the style renderer is the identity when disabled or with no codes
(both for text.go render and the box wrapCodes primitive), and otherwise
emits ESC `[`, the codes joined by `;` in append order, `m`, the string
verbatim, and the fixed reset ESC `[0m`. -/
theorem style_render_shape : ∀ (enabled : Bool) (t : TextStyle) (s : List Nat),
    TextStyle.render enabled t s = wrapCodes enabled s t.codes ∧
    wrapCodes enabled s t.codes =
      (if enabled = true ∧ t.codes ≠ [] then
        [0x1b, 0x5b] ++ List.intercalate [0x3b] t.codes ++ [0x6d] ++ s
          ++ [0x1b, 0x5b, 0x30, 0x6d]
      else s) := by
  intro e t s
  refine ⟨rfl, ?_⟩
  have hR : cReset = [0x1b, 0x5b, 0x30, 0x6d] := by decide
  rw [wrapCodes, joinSemi_eq_intercalate, hR]
  rcases e with _ | _ <;> rcases h : t.codes with _ | ⟨c, cs⟩ <;> simp [h]

/-- C6: stripping is width-stable: composing visibleWidth with stripANSI
gives visibleWidth itself (in Kleisli form, since stripANSI can panic);
equivalently the output of stripANSI contains nothing a second strip
would remove. -/
theorem strip_width_stable (s : List Nat) :
    (stripANSI s).bind visibleWidth = visibleWidth s := by
  rw [visibleWidth, stripANSI_eq_norm]
  cases h : stripFrom .norm s with
  | none => rfl
  | some r =>
      have hr : ¬ 0x1b ∈ r := stripFrom_noEsc_output s .norm r h
      simp [visibleWidth, stripANSI, hr]

/-- C7: chaining is copy-on-write: appending an attribute allocates a new
value and renders of the original reference are byte-identical before and
after, for both text styles and boxes. -/
theorem chain_immutable : ∀ (hT : List TextStyle) (r : Nat) (code : List Nat)
    (e : Bool) (s : List Nat) (hB : List Box) (rB : Nat)
    (codeB content : List Nat),
    r < hT.length → rB < hB.length →
    (renderTextAt (textWith hT r code).1 r e s = renderTextAt hT r e s ∧
     renderBoxAt (boxWithCodeH hB rB codeB).1 rB e content
       = renderBoxAt hB rB e content) := by
  intro hT r code e s hB rB codeB content hr hrB
  constructor
  · rw [renderTextAt, renderTextAt, textWith, List.getD_append _ _ _ _ hr]
  · rw [renderBoxAt, renderBoxAt, boxWithCodeH, List.getD_append _ _ _ _ hrB]

theorem chain_immutable_witness :
    renderTextAt (textWith [TextStyle.mkEmpty] 0 cRed).1 0 true (goStr "x")
      = renderTextAt [TextStyle.mkEmpty] 0 true (goStr "x") ∧
    renderBoxAt (boxWithCodeH [boxNew] 0 cRed).1 0 true (goStr "x")
      = renderBoxAt [boxNew] 0 true (goStr "x") :=
  chain_immutable [TextStyle.mkEmpty] 0 cRed true (goStr "x") [boxNew] 0 cRed
    (goStr "x") (by decide) (by decide)

/-- C9 counterexample: CLICOLOR=0 is listed by the claim as a disable
variable that beats force variables, but the code checks FORCE_COLOR
first, so with both set the detection returns true, not false; likewise
for TERM=dumb against CLICOLOR_FORCE. -/
theorem disable_precedence_counterexample :
    colorEnabled
      (fun k => if k = "CLICOLOR" then "0"
                else if k = "FORCE_COLOR" then "1" else "") false = true ∧
    colorEnabled
      (fun k => if k = "TERM" then "dumb"
                else if k = "CLICOLOR_FORCE" then "1" else "") false = true := by
  refine ⟨by decide, by decide⟩

/-- C9 amended: only NO_COLOR, NO_COLORS and DISABLE_COLORS take precedence
over the force variables; CLICOLOR=0 and TERM=dumb disable only when no
force variable is set; absent all of them the terminal heuristic decides. -/
theorem disable_precedence_cascade : ∀ (env : String → String) (tty : Bool),
    colorEnabled env tty = colorCascadeSpec env tty := by
  intro env tty
  rw [colorEnabled, colorCascadeSpec]
  by_cases h1 : env "NO_COLOR" ≠ "" ∨ env "NO_COLORS" ≠ "" ∨ env "DISABLE_COLORS" ≠ ""
  · rw [if_pos h1, if_pos h1]
  · rw [if_neg h1, if_neg h1]
    by_cases h2 : env "FORCE_COLOR" ≠ "" ∨ env "CLICOLOR_FORCE" ≠ ""
    · rw [if_pos h2, if_pos h2]
    · rw [if_neg h2, if_neg h2]
      by_cases h3 : env "CLICOLOR" = "0"
      · rw [if_pos h3, if_pos (Or.inl h3)]
      · rw [if_neg h3]
        by_cases h4 : equalFoldDumb (env "TERM") = true
        · rw [if_pos h4, if_pos (Or.inr h4)]
        · rw [if_neg h4, if_neg (by tauto)]

/-- C10: Shadow installs the default bright-black code only when the shadow
code list is empty at call time; ShadowDim / ShadowBlack / ShadowBrightBlack
chained before Shadow suppress the default, so the shadow is styled only by
the earlier codes, while the same modifiers after Shadow append to the
default — the default shadow color is order-sensitive. -/
theorem shadow_default_order_sensitive : ∀ (b : Box) (pos : ShadowPosition)
    (sty : ShadowStyle),
    (b.Shadow pos sty).shadow = some sty ∧
    (b.Shadow pos sty).shadowPos = pos ∧
    (b.Shadow pos sty).shadowCodes
      = (if b.shadowCodes = [] then [cBrightBlack] else b.shadowCodes) ∧
    ((b.ShadowDim).Shadow pos sty).shadowCodes = b.shadowCodes ++ [cDim] ∧
    ((b.ShadowBlack).Shadow pos sty).shadowCodes = b.shadowCodes ++ [cBlack] ∧
    ((b.ShadowBrightBlack).Shadow pos sty).shadowCodes
      = b.shadowCodes ++ [cBrightBlack] ∧
    ((b.Shadow pos sty).ShadowDim).shadowCodes
      = (if b.shadowCodes = [] then [cBrightBlack] else b.shadowCodes) ++ [cDim] := by
  intro b pos sty
  refine ⟨rfl, rfl, rfl, ?_, ?_, ?_, rfl⟩ <;>
    · simp [Box.Shadow, Box.ShadowDim, Box.ShadowBlack, Box.ShadowBrightBlack]


theorem contentRows_widths_aux (e : Bool) (b : Box) (lv lvr rv rvr : List Nat)
    (innerW lastIdx : Nat) (hpad : b.padLeft + b.padRight ≤ innerW)
    (hlv : SCW lv lvr) (hrv : SCW rv rvr) (hcodes : CodesOk b.codes) :
    ∀ (lines : List (List Nat)) (k : Nat) (rows : List (List Nat)),
    (∀ l ∈ lines, ∃ rr, SCW l rr ∧ countRunes rr ≤ innerW - b.padLeft - b.padRight) →
    (List.enumFrom k lines).mapM (fun p => do
        let vis ← visibleWidth p.2
        let pads := padPair (shouldCenterAt b p.1 lastIdx)
          (innerW - b.padLeft - b.padRight) vis
        pure (wrapCodes e (lv ++ spaces (b.padLeft + pads.1)) b.codes
              ++ p.2
              ++ wrapCodes e (spaces (pads.2 + b.padRight) ++ rv) b.codes))
      = some rows →
    rows.mapM visibleWidth
      = some (lines.map fun _ => countRunes lvr + innerW + countRunes rvr) := by
  intro lines
  induction lines with
  | nil =>
      intro k rows _ hm
      have h2 : some ([] : List (List Nat)) = some rows := hm
      cases h2
      rfl
  | cons l ls ih =>
      intro k rows hl hm
      rw [List.enumFrom_cons, List.mapM_cons] at hm
      obtain ⟨row, hrow, hm2⟩ := Option.bind_eq_some.mp hm
      obtain ⟨rest, hrest, hm3⟩ := Option.bind_eq_some.mp hm2
      simp at hm3
      subst hm3
      obtain ⟨rr, hS, hle⟩ := hl l (List.mem_cons_self _ _)
      simp only [Option.bind_eq_bind', SCW_visW hS, Option.some_bind,
        Option.pure_def, Option.some_inj] at hrow
      have hA : SCW
          (wrapCodes e (lv ++ spaces (b.padLeft +
            (padPair (shouldCenterAt b k lastIdx)
              (innerW - b.padLeft - b.padRight) (countRunes rr)).1)) b.codes)
          (lvr ++ spaces (b.padLeft +
            (padPair (shouldCenterAt b k lastIdx)
              (innerW - b.padLeft - b.padRight) (countRunes rr)).1)) :=
        SCW_wrap _ _ hcodes (SCW_append hlv (SCW_spaces _))
      have hC : SCW
          (wrapCodes e (spaces ((padPair (shouldCenterAt b k lastIdx)
              (innerW - b.padLeft - b.padRight) (countRunes rr)).2 + b.padRight)
            ++ rv) b.codes)
          (spaces ((padPair (shouldCenterAt b k lastIdx)
              (innerW - b.padLeft - b.padRight) (countRunes rr)).2 + b.padRight)
            ++ rvr) :=
        SCW_wrap _ _ hcodes (SCW_append (SCW_spaces _) hrv)
      have hw : visibleWidth row = some (countRunes lvr + innerW + countRunes rvr) := by
        rw [← hrow]
        rw [SCW_width_append (SCW_append hA hS) hC]
        have e1 : countRunes ((lvr ++ spaces (b.padLeft +
            (padPair (shouldCenterAt b k lastIdx)
              (innerW - b.padLeft - b.padRight) (countRunes rr)).1)) ++ rr)
            = countRunes lvr + (b.padLeft +
              (padPair (shouldCenterAt b k lastIdx)
                (innerW - b.padLeft - b.padRight) (countRunes rr)).1)
              + countRunes rr := by
          rw [countRunes_append _ _ (validUtf8_append _ _ hlv.1
            (validUtf8_ascii _ (spaces_ascii _))),
            countRunes_append _ _ hlv.1, countRunes_spaces]
        have e2 : countRunes (spaces ((padPair (shouldCenterAt b k lastIdx)
              (innerW - b.padLeft - b.padRight) (countRunes rr)).2 + b.padRight)
            ++ rvr)
            = ((padPair (shouldCenterAt b k lastIdx)
                (innerW - b.padLeft - b.padRight) (countRunes rr)).2 + b.padRight)
              + countRunes rvr := by
          rw [countRunes_append _ _ (validUtf8_ascii _ (spaces_ascii _)),
            countRunes_spaces]
        rw [e1, e2]
        have hsum := padPair_sum (shouldCenterAt b k lastIdx)
          (innerW - b.padLeft - b.padRight) (countRunes rr) hle
        exact congrArg some (by omega)
      rw [List.mapM_cons, hw]
      simp only [Option.bind_eq_bind', Option.some_bind]
      rw [ih (k + 1) rest (fun x hx => hl x (List.mem_cons_of_mem _ hx)) hrest]
      simp


theorem mapM_option_mem {α β : Type} (f : α → Option β) :
    ∀ (l : List α) (res : List β) (a : α), l.mapM f = some res → a ∈ l →
    ∃ w, w ∈ res ∧ f a = some w := by
  intro l
  induction l with
  | nil => intro res a _ ha; simp at ha
  | cons x t ih =>
      intro res a hm ha
      rw [List.mapM_cons] at hm
      obtain ⟨w, hw, hm2⟩ := Option.bind_eq_some.mp hm
      obtain ⟨wsx, hws, hm3⟩ := Option.bind_eq_some.mp hm2
      simp at hm3
      subst hm3
      rcases List.mem_cons.mp ha with rfl | hat
      · exact ⟨w, List.mem_cons_self _ _, hw⟩
      · obtain ⟨w2, hw2, hfw⟩ := ih wsx a hws hat
        exact ⟨w2, List.mem_cons_of_mem _ hw2, hfw⟩

set_option maxHeartbeats 1000000 in
theorem boxRowsOf_widths (e : Bool) (b : Box) (lines rows : List (List Nat))
    (ws : List Nat)
    (hcodes : CodesOk b.codes)
    (hTLc : ¬ 0x1b ∈ b.border.topLeft ∧ validUtf8 b.border.topLeft = true)
    (hTRc : ¬ 0x1b ∈ b.border.topRight ∧ validUtf8 b.border.topRight = true)
    (hBLc : ¬ 0x1b ∈ b.border.bottomLeft ∧ validUtf8 b.border.bottomLeft = true)
    (hBRc : ¬ 0x1b ∈ b.border.bottomRight ∧ validUtf8 b.border.bottomRight = true)
    (hHc : ¬ 0x1b ∈ b.border.horizontal ∧ validUtf8 b.border.horizontal = true)
    (hVc : ¬ 0x1b ∈ b.border.vertical ∧ validUtf8 b.border.vertical = true)
    (hlines : ∀ l ∈ lines, ∃ rr, SCW l rr)
    (hws : lines.mapM visibleWidth = some ws)
    (h : boxRowsOf e b lines = some rows) :
    rows.mapM visibleWidth = some (
      (if b.hideTop then [] else
        [countRunes b.border.topLeft
          + (maxVis ws + b.padLeft + b.padRight) * countRunes b.border.horizontal
          + countRunes b.border.topRight])
      ++ List.replicate b.padTop
           (countRunes b.border.vertical + (maxVis ws + b.padLeft + b.padRight)
             + countRunes b.border.vertical)
      ++ (lines.map fun _ =>
           countRunes b.border.vertical + (maxVis ws + b.padLeft + b.padRight)
             + countRunes b.border.vertical)
      ++ List.replicate b.padBottom
           (countRunes b.border.vertical + (maxVis ws + b.padLeft + b.padRight)
             + countRunes b.border.vertical)
      ++ (if b.hideBottom then [] else
        [countRunes b.border.bottomLeft
          + (maxVis ws + b.padLeft + b.padRight) * countRunes b.border.horizontal
          + countRunes b.border.bottomRight])) := by
  simp only [boxRowsOf, Option.bind_eq_bind', Option.bind_eq_some, Option.pure_def,
    Option.some_inj] at h
  obtain ⟨ws2, hws2, lv, hlv, rv, hrv, h⟩ := h
  rw [hws] at hws2
  obtain rfl := Option.some_inj.mp hws2
  obtain ⟨lvr, hSlv, hclv⟩ := subGlyph_SCW hVc hlv
  obtain ⟨rvr, hSrv, hcrv⟩ := subGlyph_SCW hVc hrv
  have hPadRow : visibleWidth
      (wrapCodes e (lv ++ spaces (maxVis ws + b.padLeft + b.padRight) ++ rv) b.codes)
      = some (countRunes b.border.vertical + (maxVis ws + b.padLeft + b.padRight)
          + countRunes b.border.vertical) := by
    rw [SCW_visW (SCW_wrap _ _ hcodes (SCW_append (SCW_append hSlv (SCW_spaces _)) hSrv))]
    rw [countRunes_append _ _ (validUtf8_append _ _ hSlv.1
      (validUtf8_ascii _ (spaces_ascii _))),
      countRunes_append _ _ hSlv.1, countRunes_spaces, hclv, hcrv]
  have hlines2 : ∀ l ∈ lines, ∃ rr, SCW l rr ∧
      countRunes rr ≤ (maxVis ws + b.padLeft + b.padRight) - b.padLeft - b.padRight := by
    intro l hl
    obtain ⟨rr, hS⟩ := hlines l hl
    refine ⟨rr, hS, ?_⟩
    obtain ⟨w, hwmem, hfw⟩ := mapM_option_mem visibleWidth lines ws l hws hl
    rw [SCW_visW hS] at hfw
    have := le_maxVis ws w hwmem
    have hc2 : countRunes rr = w := Option.some_inj.mp hfw
    omega
  have hTopW : ∀ tl2 tr2, subGlyph b.hideLeft b.border.topLeft = some tl2 →
      subGlyph b.hideRight b.border.topRight = some tr2 →
      visibleWidth (wrapCodes e
        (tl2 ++ rep b.border.horizontal (maxVis ws + b.padLeft + b.padRight) ++ tr2)
        b.codes)
      = some (countRunes b.border.topLeft
          + (maxVis ws + b.padLeft + b.padRight) * countRunes b.border.horizontal
          + countRunes b.border.topRight) := by
    intro tl2 tr2 htl htr
    obtain ⟨tlr, hStl, hctl⟩ := subGlyph_SCW hTLc htl
    obtain ⟨trr, hStr, hctr⟩ := subGlyph_SCW hTRc htr
    have hSrep : SCW (rep b.border.horizontal (maxVis ws + b.padLeft + b.padRight))
        (rep b.border.horizontal (maxVis ws + b.padLeft + b.padRight)) :=
      SCW_noEsc (rep_noEsc hHc.1 _) (rep_valid hHc.2 _)
    rw [SCW_visW (SCW_wrap _ _ hcodes (SCW_append (SCW_append hStl hSrep) hStr))]
    rw [countRunes_append _ _ (validUtf8_append _ _ hStl.1 (rep_valid hHc.2 _)),
      countRunes_append _ _ hStl.1, rep_count hHc.2, hctl, hctr]
  have hBotW : ∀ bl2 br2, subGlyph b.hideLeft b.border.bottomLeft = some bl2 →
      subGlyph b.hideRight b.border.bottomRight = some br2 →
      visibleWidth (wrapCodes e
        (bl2 ++ rep b.border.horizontal (maxVis ws + b.padLeft + b.padRight) ++ br2)
        b.codes)
      = some (countRunes b.border.bottomLeft
          + (maxVis ws + b.padLeft + b.padRight) * countRunes b.border.horizontal
          + countRunes b.border.bottomRight) := by
    intro bl2 br2 hbl hbr
    obtain ⟨blr, hSbl, hcbl⟩ := subGlyph_SCW hBLc hbl
    obtain ⟨brr, hSbr, hcbr⟩ := subGlyph_SCW hBRc hbr
    have hSrep : SCW (rep b.border.horizontal (maxVis ws + b.padLeft + b.padRight))
        (rep b.border.horizontal (maxVis ws + b.padLeft + b.padRight)) :=
      SCW_noEsc (rep_noEsc hHc.1 _) (rep_valid hHc.2 _)
    rw [SCW_visW (SCW_wrap _ _ hcodes (SCW_append (SCW_append hSbl hSrep) hSbr))]
    rw [countRunes_append _ _ (validUtf8_append _ _ hSbl.1 (rep_valid hHc.2 _)),
      countRunes_append _ _ hSbl.1, rep_count hHc.2, hcbl, hcbr]
  by_cases hT : b.hideTop <;> by_cases hB : b.hideBottom <;>
    simp only [hT, hB, if_true, if_false, Option.some_bind] at h ⊢
  · obtain ⟨content, hc, h⟩ := Option.bind_eq_some.mp h
    simp only [Option.some_bind, Option.some_inj] at h
    rw [contentRows] at hc
    have hcw := contentRows_widths_aux e b lv lvr rv rvr
      (maxVis ws + b.padLeft + b.padRight) (lines.length - 1) (by omega)
      hSlv hSrv hcodes lines 0 content hlines2 hc
    rw [← h]
    simp only [List.nil_append]
    refine mapM_option_append _ _ _ _ _
      (mapM_option_append _ _ _ _ _
        (mapM_option_append _ _ _ _ _
          (mapM_option_replicate _ _ _ hPadRow b.padTop)
          (by rw [hcw, hclv, hcrv])) 
        (mapM_option_replicate _ _ _ hPadRow b.padBottom)) ?_
    rfl
  · obtain ⟨content, hc, h⟩ := Option.bind_eq_some.mp h
    obtain ⟨bl2, hbl, h⟩ := Option.bind_eq_some.mp h
    obtain ⟨br2, hbr, h⟩ := Option.bind_eq_some.mp h
    simp only [Option.some_bind, Option.some_inj] at h
    rw [contentRows] at hc
    have hcw := contentRows_widths_aux e b lv lvr rv rvr
      (maxVis ws + b.padLeft + b.padRight) (lines.length - 1) (by omega)
      hSlv hSrv hcodes lines 0 content hlines2 hc
    rw [← h]
    simp only [List.nil_append]
    refine mapM_option_append _ _ _ _ _
      (mapM_option_append _ _ _ _ _
        (mapM_option_append _ _ _ _ _
          (mapM_option_replicate _ _ _ hPadRow b.padTop)
          (by rw [hcw, hclv, hcrv]))
        (mapM_option_replicate _ _ _ hPadRow b.padBottom))
      (mapM_option_singleton _ _ _ (hBotW bl2 br2 hbl hbr))
  · obtain ⟨tl2, htl, h⟩ := Option.bind_eq_some.mp h
    obtain ⟨tr2, htr, h⟩ := Option.bind_eq_some.mp h
    try simp only [Option.some_bind] at h
    obtain ⟨content, hc, h⟩ := Option.bind_eq_some.mp h
    simp only [Option.some_bind, Option.some_inj] at h
    rw [contentRows] at hc
    have hcw := contentRows_widths_aux e b lv lvr rv rvr
      (maxVis ws + b.padLeft + b.padRight) (lines.length - 1) (by omega)
      hSlv hSrv hcodes lines 0 content hlines2 hc
    rw [← h]
    refine mapM_option_append _ _ _ _ _
      (mapM_option_append _ _ _ _ _
        (mapM_option_append _ _ _ _ _
          (mapM_option_append _ _ _ _ _
            (mapM_option_singleton _ _ _ (hTopW tl2 tr2 htl htr))
            (mapM_option_replicate _ _ _ hPadRow b.padTop))
          (by rw [hcw, hclv, hcrv]))
        (mapM_option_replicate _ _ _ hPadRow b.padBottom)) ?_
    rfl
  · obtain ⟨tl2, htl, h⟩ := Option.bind_eq_some.mp h
    obtain ⟨tr2, htr, h⟩ := Option.bind_eq_some.mp h
    try simp only [Option.some_bind] at h
    obtain ⟨content, hc, h⟩ := Option.bind_eq_some.mp h
    obtain ⟨bl2, hbl, h⟩ := Option.bind_eq_some.mp h
    obtain ⟨br2, hbr, h⟩ := Option.bind_eq_some.mp h
    simp only [Option.some_bind, Option.some_inj] at h
    rw [contentRows] at hc
    have hcw := contentRows_widths_aux e b lv lvr rv rvr
      (maxVis ws + b.padLeft + b.padRight) (lines.length - 1) (by omega)
      hSlv hSrv hcodes lines 0 content hlines2 hc
    rw [← h]
    refine mapM_option_append _ _ _ _ _
      (mapM_option_append _ _ _ _ _
        (mapM_option_append _ _ _ _ _
          (mapM_option_append _ _ _ _ _
            (mapM_option_singleton _ _ _ (hTopW tl2 tr2 htl htr))
            (mapM_option_replicate _ _ _ hPadRow b.padTop))
          (by rw [hcw, hclv, hcrv]))
        (mapM_option_replicate _ _ _ hPadRow b.padBottom))
      (mapM_option_singleton _ _ _ (hBotW bl2 br2 hbl hbr))

theorem contentRows_hideTop (e : Bool) (b : Box) (x : Bool) (lv rv : List Nat)
    (iw : Nat) (lines : List (List Nat)) :
    contentRows e { b with hideTop := x } lv rv iw lines
      = contentRows e b lv rv iw lines := rfl

theorem boxRowsOf_hideTop_tail (e : Bool) (b : Box) (lines rows : List (List Nat))
    (h : boxRowsOf e { b with hideTop := false } lines = some rows) :
    boxRowsOf e { b with hideTop := true } lines = some rows.tail := by
  simp only [boxRowsOf, Option.bind_eq_bind', Option.bind_eq_some, Option.pure_def,
    Option.some_inj, Bool.false_eq_true, if_false, if_true] at h ⊢
  obtain ⟨ws, hws, lv, hlv, rv, hrv, tl, htl, tr, htr, y, hy, content, hc, h⟩ := h
  subst hy
  refine ⟨ws, hws, lv, hlv, rv, hrv, [], rfl, content, hc, ?_⟩
  by_cases hB : b.hideBottom = true
  · rw [if_pos hB] at h ⊢
    simp only [Option.some_bind, Option.some_inj] at h ⊢
    rw [← h]; simp
  · rw [if_neg hB] at h ⊢
    rcases hbl : subGlyph b.hideLeft b.border.bottomLeft with _ | bl <;>
      rcases hbr : subGlyph b.hideRight b.border.bottomRight with _ | br <;>
        simp only [hbl, hbr, Option.none_bind, Option.some_bind, Option.some_inj] at h ⊢
    · simp at h
    · simp at h
    · simp at h
    · rw [← h]; simp

/-- **C8.** For every box with the top side disabled, the top border row is
omitted entirely (no placeholder row): the row list of the hidden-top box is
exactly the tail of the row list of the same box with the top visible.  On
every row, corner and vertical-fill glyphs on a disabled left/right side are
replaced by runs of plain spaces of equal visible width, so every row keeps
exactly the same visible width regardless of the hideLeft/hideRight flags.
In particular `Box(disableTop=true).render("hi")` yields exactly two rows,
the first being `│hi│`. -/
theorem disabled_side_glyph_substitution :
    (boxRowsOf false boxNew.DisableTop [goStr "hi"]
        = some [goStr "│hi│", goStr "└──┘"]) ∧
    (∀ (e : Bool) (b : Box) (lines rows : List (List Nat)),
      boxRowsOf e { b with hideTop := false } lines = some rows →
      boxRowsOf e { b with hideTop := true } lines = some rows.tail) ∧
    (∀ (e : Bool) (b : Box) (hl hr : Bool) (lines rows rows2 : List (List Nat))
        (ws : List Nat),
      CodesOk b.codes →
      (¬ 0x1b ∈ b.border.topLeft ∧ validUtf8 b.border.topLeft = true) →
      (¬ 0x1b ∈ b.border.topRight ∧ validUtf8 b.border.topRight = true) →
      (¬ 0x1b ∈ b.border.bottomLeft ∧ validUtf8 b.border.bottomLeft = true) →
      (¬ 0x1b ∈ b.border.bottomRight ∧ validUtf8 b.border.bottomRight = true) →
      (¬ 0x1b ∈ b.border.horizontal ∧ validUtf8 b.border.horizontal = true) →
      (¬ 0x1b ∈ b.border.vertical ∧ validUtf8 b.border.vertical = true) →
      (∀ l ∈ lines, ∃ rr, SCW l rr) →
      lines.mapM visibleWidth = some ws →
      boxRowsOf e b lines = some rows →
      boxRowsOf e { b with hideLeft := hl, hideRight := hr } lines = some rows2 →
      rows2.mapM visibleWidth = rows.mapM visibleWidth) := by
  refine ⟨by decide, fun e b lines rows h => boxRowsOf_hideTop_tail e b lines rows h, ?_⟩
  intro e b hl hr lines rows rows2 ws hcodes hTL hTR hBL hBR hH hV hlines hws h1 h2
  have w1 := boxRowsOf_widths e b lines rows ws hcodes hTL hTR hBL hBR hH hV hlines hws h1
  have w2 := boxRowsOf_widths e { b with hideLeft := hl, hideRight := hr } lines rows2 ws
    hcodes hTL hTR hBL hBR hH hV hlines hws h2
  rw [w1, w2]

/-- Witness for C8 at concrete inputs. -/
theorem disabled_side_glyph_substitution_witness :
    boxRowsOf false { boxNew with hideTop := true } [goStr "hi"]
        = some ([goStr "┌──┐", goStr "│hi│", goStr "└──┘"].tail) ∧
    ([goStr " ── ", goStr " hi ", goStr " ── "].mapM visibleWidth
        = [goStr "┌──┐", goStr "│hi│", goStr "└──┘"].mapM visibleWidth) := by
  refine ⟨disabled_side_glyph_substitution.2.1 false boxNew [goStr "hi"]
    [goStr "┌──┐", goStr "│hi│", goStr "└──┘"] (by decide), ?_⟩
  exact disabled_side_glyph_substitution.2.2 false boxNew true true [goStr "hi"]
    [goStr "┌──┐", goStr "│hi│", goStr "└──┘"]
    [goStr " ── ", goStr " hi ", goStr " ── "] [2]
    (by decide) (by decide) (by decide) (by decide) (by decide) (by decide) (by decide)
    (fun l hl => by
      simp only [List.mem_singleton] at hl
      subst hl
      exact ⟨goStr "hi", SCW_noEsc (by decide) (by decide)⟩)
    (by decide) (by decide) (by decide)

end Tinta
